import Mathlib

/-!
# gblink: the clock-edge driven bit/byte shift engine of `src/gblink.c`

A shallow embedding of the link state (`struct gblink`), of the public setters,
of `gblink_transfer`, of the handle that `gblink_alloc` returns and of the two
halves of the clock interrupt handler (`gblink_shift_in`, `gblink_shift_out`,
`gblink_clk_isr`).

Machine integers are natural numbers reduced explicitly: `uint8_t` fields modulo
`256`, the `uint64_t` timer value modulo `2 ^ 64`.  The field `time` has the type
`TickType_t`, which is declared by FreeRTOS and not by this repository; its width
in bits is the parameter `tickBits` of the functions that write it.  The ESP-IDF
port of FreeRTOS declares `typedef uint32_t TickType_t;`, recorded here as
`TickType_t_bits_esp32`.

What the hardware and the application supply is an input of the model: the timer
value read by `esp_timer_get_time`, the levels read by `gpio_get_level`, and the
calls that the registered callback makes on the handle when it is invoked.  What
the handler does to the outside is returned as a list of `Effect`s: the levels
driven with `gpio_set_level` and the invocations of the callback.
-/

namespace GBLink

/-- The link handle, `struct gblink` (gblink.c lines 13-36).  The field `in` of the
source is `in_` here since `in` is reserved. Pointers and handles are numbers. -/
structure gblink where
  serin : Nat
  serout : Nat
  clk : Nat
  in_ : Nat
  out : Nat
  out_buf : Nat
  out_buf_valid : Bool
  shift : Nat
  nobyte : Nat
  source : Nat
  mode : Nat
  speed : Nat
  time : Nat
  bitclk_timeout_us : Nat
  packet_done : Nat
  callback : Nat
  cb_context : Nat
deriving DecidableEq, Repr

/-- Width of `TickType_t` on the ESP32 (ESP-IDF FreeRTOS port, `uint32_t`). -/
def TickType_t_bits_esp32 : Nat := 32

/-- A call of the public interface made on the handle, by the application or from
inside the completion callback. -/
inductive Call where
  | clk_source_set (source : Nat)
  | speed_set (speed : Nat)
  | timeout_set (us : Nat)
  | transfer (val : Nat)
  | nobyte_set (val : Nat)
deriving DecidableEq, Repr

/-- What the handler does to the outside world: drive a pin, or invoke the
registered callback `fn` with the stored context and the completed byte. -/
inductive Effect where
  | gpio_set_level (pin level : Nat)
  | callback (fn ctx byte : Nat)
deriving DecidableEq, Repr

/-- `gblink_clk_source_set` (lines 39-45). -/
def gblink_clk_source_set (g : gblink) (source : Nat) : gblink :=
  { g with source := source, shift := 0 }

/-- `gblink_speed_set` (lines 47-52). -/
def gblink_speed_set (g : gblink) (speed : Nat) : gblink :=
  { g with speed := speed }

/-- `gblink_timeout_set` (lines 55-60); the argument is a `uint32_t`. -/
def gblink_timeout_set (g : gblink) (us : Nat) : gblink :=
  { g with bitclk_timeout_us := us % 2 ^ 32 }

/-- `gblink_transfer` (lines 62-92); the argument is a `uint8_t`. -/
def gblink_transfer (g : gblink) (val : Nat) : gblink :=
  if g.shift = 0 then
    { g with out := val % 256, out_buf_valid := false }
  else
    { g with out_buf := val % 256, out_buf_valid := true }

/-- `gblink_nobyte_set` (lines 94-98); the argument is a `uint8_t`. -/
def gblink_nobyte_set (g : gblink) (val : Nat) : gblink :=
  { g with nobyte := val % 256 }

/-- One call of the public interface applied to the handle. -/
def applyCall (g : gblink) : Call → gblink
  | .clk_source_set s => gblink_clk_source_set g s
  | .speed_set s => gblink_speed_set g s
  | .timeout_set us => gblink_timeout_set g us
  | .transfer v => gblink_transfer g v
  | .nobyte_set v => gblink_nobyte_set g v

/-- A sequence of calls applied in order. -/
def applyCalls (g : gblink) : List Call → gblink
  | [] => g
  | c :: cs => applyCalls (applyCall g c) cs

/-- The expression `curr_time - gblink->time` of line 104: both operands are
converted to `uint64_t` and the difference wraps modulo `2 ^ 64`. -/
def elapsed_us (curr_time time : Nat) : Nat :=
  (curr_time % 2 ^ 64 + 2 ^ 64 - time % 2 ^ 64) % 2 ^ 64

/-- Lines 102-112 of `gblink_shift_in`: the staleness check, the store of the
timer value into the `TickType_t` field `time`, and the shift of one sampled bit.
`now` is the value returned by `esp_timer_get_time`, `level` the value returned by
`gpio_get_level(gblink->serin)`. -/
def shift_in_bit (tickBits : Nat) (g : gblink) (now level : Nat) : gblink :=
  let curr_time := now % 2 ^ 64
  let g1 := if elapsed_us curr_time g.time > g.bitclk_timeout_us
            then { g with in_ := 0, shift := 0 } else g
  let g2 := { g1 with time := curr_time % 2 ^ tickBits }
  let g3 := { g2 with in_ := (g2.in_ * 2) % 256 }
  let g4 := { g3 with in_ := (g3.in_ ||| level) % 256 }
  { g4 with shift := (g4.shift + 1) % 256 }

/-- Lines 117-131 of `gblink_shift_in`: the state in which the callback is
entered when a byte completes (counter reset, next outbound byte promoted). -/
def promote (g : gblink) : gblink :=
  let g6 := { g with shift := 0 }
  if g6.out_buf_valid then
    { g6 with out := g6.out_buf, out_buf_valid := false }
  else
    { g6 with out := g6.nobyte }

/-- `gblink_shift_in` (lines 100-134).  `cb ctx byte` is the list of calls that the
registered callback makes on the handle when invoked with `ctx` and `byte`. -/
def gblink_shift_in (tickBits : Nat) (cb : Nat → Nat → List Call) (g : gblink)
    (now level : Nat) : gblink × List Effect :=
  let g5 := shift_in_bit tickBits g now level
  if g5.shift = 8 then
    let g7 := promote g5
    (applyCalls g7 (cb g7.cb_context g7.in_),
      [Effect.callback g7.callback g7.cb_context g7.in_])
  else
    (g5, [])

/-- `gblink_shift_out` (lines 136-140): drive `!!(out & 0x80)`, shift `out` left. -/
def gblink_shift_out (g : gblink) : gblink × List Effect :=
  ({ g with out := (g.out * 2) % 256 },
    [Effect.gpio_set_level g.serout (if g.out &&& 0x80 ≠ 0 then 1 else 0)])

/-- `gblink_clk_isr` (lines 142-152): `clk_level` is the value returned by
`gpio_get_level(gblink->clk)` at entry. -/
def gblink_clk_isr (tickBits : Nat) (cb : Nat → Nat → List Call) (g : gblink)
    (clk_level now level : Nat) : gblink × List Effect :=
  if clk_level ≠ 0 then gblink_shift_in tickBits cb g now level
  else gblink_shift_out g

/-- One thing that happens to a handle: the interrupt taken with the clock high
(timer value, serial-in level, behaviour of the callback), the interrupt taken
with the clock low, or a call of the public interface by the application. -/
inductive Event where
  | rising (now level : Nat) (cb : Nat → Nat → List Call)
  | falling
  | api (c : Call)

/-- A callback that makes no call on the handle. -/
def cb_none : Nat → Nat → List Call := fun _ _ => []

/-- The handle and the effects after one event.  Both kinds of edge enter through
`gblink_clk_isr`, which samples the clock as 1 or as 0; on a falling edge the timer
and the serial-in pin are not read. -/
def step (tickBits : Nat) (g : gblink) : Event → gblink × List Effect
  | .rising now level cb => gblink_clk_isr tickBits cb g 1 now level
  | .falling => gblink_clk_isr tickBits cb_none g 0 0 0
  | .api c => (applyCall g c, [])

/-- The handle and the effects, in order, after a sequence of events. -/
def run (tickBits : Nat) : gblink → List Event → gblink × List Effect
  | g, [] => (g, [])
  | g, e :: es =>
    let r := step tickBits g e
    let r2 := run tickBits r.1 es
    (r2.1, r.2 ++ r2.2)

/-- A callback that calls `gblink_transfer(v)` and nothing else. -/
def cb_transfer (v : Nat) : Nat → Nat → List Call := fun _ _ => [Call.transfer v]

/-- The levels driven on a pin, in order. -/
def driven (pin : Nat) : List Effect → List Nat
  | [] => []
  | .gpio_set_level p l :: fx => if p = pin then l :: driven pin fx else driven pin fx
  | .callback _ _ _ :: fx => driven pin fx

/-- The bytes handed to the callback, in order. -/
def delivered : List Effect → List Nat
  | [] => []
  | .gpio_set_level _ _ :: fx => delivered fx
  | .callback _ _ b :: fx => b :: delivered fx

/-- A handle in the middle of a byte: 6 bits shifted in, `0x81` being clocked out,
last rising edge at timer value 100. -/
def mid_byte_handle : gblink :=
  { serin := 1, serout := 2, clk := 3, in_ := 0x2A, out := 0x81, out_buf := 0,
    out_buf_valid := false, shift := 6, nobyte := 0xFF, source := 0, mode := 0,
    speed := 0, time := 100, bitclk_timeout_us := 200, packet_done := 0,
    callback := 7, cb_context := 9 }

/-- The fields that are written only by `gblink_alloc`: the three pins, the
callback and its context. -/
def wiring (g : gblink) : Nat × Nat × Nat × Nat × Nat :=
  (g.serin, g.serout, g.clk, g.callback, g.cb_context)

/-- The event is a call of `gblink_transfer` made by the application. -/
def Event.isTransfer : Event → Bool
  | .api (.transfer _) => true
  | _ => false

/-- The call is a call of `gblink_transfer`. -/
def Call.isTransfer : Call → Bool
  | .transfer _ => true
  | _ => false

/-- The event is an interrupt taken with the clock high. -/
def Event.isRising : Event → Bool
  | .rising _ _ _ => true
  | _ => false

/-- Number of falling edges in a sequence of events. -/
def countFalling : List Event → Nat
  | [] => 0
  | .falling :: es => countFalling es + 1
  | _ :: es => countFalling es

/-- The serial-in levels sampled by the rising edges of a sequence of events. -/
def samples : List Event → List Nat
  | [] => []
  | .rising _ l _ :: es => l :: samples es
  | _ :: es => samples es

/-- The levels that `n` successive executions of `gblink_shift_out` drive when the
outbound register holds `out` and nothing else writes it. -/
def levels : Nat → Nat → List Nat
  | _, 0 => []
  | out, n + 1 => (if out &&& 0x80 ≠ 0 then 1 else 0) :: levels (out * 2 % 256) n

/-- The outbound register after `n` executions of `out <<= 1`. -/
def out_after : Nat → Nat → Nat
  | out, 0 => out
  | out, n + 1 => out_after (out * 2 % 256) n

/-- The eight bits of a byte, most significant first. -/
def msb_first (v : Nat) : List Nat :=
  [v / 128 % 2, v / 64 % 2, v / 32 % 2, v / 16 % 2, v / 8 % 2, v / 4 % 2, v / 2 % 2, v % 2]

/-- The inbound accumulator after shifting the levels `ls` in, first level first:
`in <<= 1; in |= level` for each. -/
def accum : Nat → List Nat → Nat
  | acc, [] => acc
  | acc, l :: ls => accum ((acc * 2 % 256 ||| l) % 256) ls

/-- The byte whose bits, most significant first, are the levels `ls`. -/
def byte_of : List Nat → Nat
  | [] => 0
  | l :: ls => l * 2 ^ ls.length + byte_of ls

/-- The idle byte in force after a sequence of events: the argument of the last
`gblink_nobyte_set` among them, the previous value when there is none. -/
def idle_after : Nat → List Event → Nat
  | nb, [] => nb
  | _, .api (.nobyte_set v) :: es => idle_after (v % 256) es
  | nb, _ :: es => idle_after nb es

/-- The rising edges `es` are in time after an edge at timer value `prev`: every
event is a rising edge, arrives no earlier than the edge before it and at most
`timeout` us after it, and its timer value fits a `TickType_t` of `tickBits` bits. -/
def in_time (tickBits timeout : Nat) : Nat → List Event → Bool
  | _, [] => true
  | prev, .rising now _ _ :: es =>
    decide (prev ≤ now) && decide (now - prev ≤ timeout) && decide (now < 2 ^ tickBits) &&
      in_time tickBits timeout now es
  | _, _ :: _ => false

/-- The two handles agree on every field but the pending slot
(`out_buf`, `out_buf_valid`). -/
def eqExceptPending (a b : gblink) : Prop :=
  { a with out_buf := 0, out_buf_valid := false } =
    { b with out_buf := 0, out_buf_valid := false }

/-- The two handles agree on every field but the outbound register `out`. -/
def eqExceptOut (a b : gblink) : Prop :=
  { a with out := 0 } = { b with out := 0 }

/-- The two handles agree on every field that a later step can read: all fields
but `out_buf`, which has to agree only while `out_buf_valid` is set. -/
def obsEq (a b : gblink) : Prop :=
  { a with out_buf := 0 } = { b with out_buf := 0 } ∧
    (a.out_buf_valid = true → a.out_buf = b.out_buf)

/-- Rising edges `10` us apart starting at timer value `t0`, one per level, with a
callback that makes no call on the handle. -/
def edges_10us (t0 : Nat) (ls : List Nat) : List Event :=
  ((List.range ls.length).zip ls).map fun p => Event.rising (t0 + 10 * p.1) p.2 cb_none

/-- A falling edge followed by a rising edge in time, `n` times: the clock of a
transfer in progress, `10` us per half period, starting at timer value `t0`. -/
def clock_pairs (t0 level : Nat) : Nat → List Event
  | 0 => []
  | n + 1 => Event.falling :: Event.rising (t0 + 10) level cb_none ::
      clock_pairs (t0 + 20) level n

/-- A handle at a byte boundary with nothing pending, for concrete runs: pins 1, 2
and 3, the timeout of 200 us that `gblink_alloc` sets, idle byte `0xFF`. -/
def sample_handle : gblink :=
  { serin := 1, serout := 2, clk := 3, in_ := 0, out := 0, out_buf := 0,
    out_buf_valid := false, shift := 0, nobyte := 0xFF, source := 0, mode := 0,
    speed := 0, time := 0, bitclk_timeout_us := 200, packet_done := 0,
    callback := 7, cb_context := 9 }

/-- The configuration fields of the handle: clock source, speed, bit clock
timeout, idle byte, callback and callback context. -/
def config (g : gblink) : Nat × Nat × Nat × Nat × Nat × Nat :=
  (g.source, g.speed, g.bitclk_timeout_us, g.nobyte, g.callback, g.cb_context)

/-- Modelled from the spec: `struct gblink_pins` is declared in `gblink.h`, which is
not among the sources; the fields are the three that `gblink_alloc` reads from
`gblink_def->pins` (the pin assignment of `allocate`). -/
structure gblink_pins where
  serin : Nat
  serout : Nat
  clk : Nat
deriving DecidableEq, Repr

/-- Modelled from the spec: `struct gblink_def` is declared in `gblink.h`, which is
not among the sources; the fields are those that `gblink_alloc` reads (pin
assignment, clock role, completion callback and callback context of `allocate`). -/
structure gblink_def where
  pins : gblink_pins
  source : Nat
  callback : Nat
  cb_context : Nat
deriving DecidableEq, Repr

/-- `gblink_alloc` (lines 154-226), the handle it returns.  `mem` is the content of
the block that the second `malloc` returns, which the function never clears (there
is no `memset` or `calloc`); `spd_8192hz` is the value of the enumerator
`GBLINK_SPD_8192HZ` of `gblink.h`; `now` is the value returned by
`esp_timer_get_time`.  The calls that configure the pins and register the
interrupt (lines 180-223) write no field of the handle. -/
def gblink_alloc (tickBits : Nat) (spd_8192hz : Nat) (mem : gblink) (d : gblink_def)
    (now : Nat) : gblink :=
  { mem with
    serin := d.pins.serin
    serout := d.pins.serout
    clk := d.pins.clk
    source := d.source
    speed := spd_8192hz
    bitclk_timeout_us := 200
    time := now % 2 ^ 64 % 2 ^ tickBits
    callback := d.callback
    cb_context := d.cb_context }

/-- What the latest event among calls of `gblink_transfer` and byte completions
leaves to remember, given the handle `g` on which the event `e` acts and the
memory `m` so far: `some v` after a call `gblink_transfer(v)` made with
`shift > 0` (`v` as the `uint8_t` the call receives), `none` after a call made
with `shift == 0` and after a rising edge that completes a byte (the callback of
that edge runs with `shift == 0`); any other event leaves `m` as it is. -/
def last_pending (tickBits : Nat) (g : gblink) (m : Option Nat) : Event → Option Nat
  | .api (.transfer v) => if g.shift = 0 then none else some (v % 256)
  | .rising now level _ => if (shift_in_bit tickBits g now level).shift = 8 then none else m
  | _ => m

/-- The memory of `last_pending` after a sequence of events, run along the
handle. -/
def last_pending_after (tickBits : Nat) : gblink → Option Nat → List Event → Option Nat
  | _, m, [] => m
  | g, m, e :: es =>
    last_pending_after tickBits (step tickBits g e).1 (last_pending tickBits g m e) es

/-- A block of memory as `malloc` may return it when the heap has been used
before: nonzero bytes in the fields that `gblink_alloc` does not assign. -/
def dirty_block : gblink :=
  { serin := 0, serout := 0, clk := 0, in_ := 0x5A, out := 0xC3, out_buf := 0x77,
    out_buf_valid := true, shift := 200, nobyte := 0x11, source := 0, mode := 0,
    speed := 0, time := 0, bitclk_timeout_us := 0, packet_done := 0,
    callback := 0, cb_context := 0 }

/-- A definition as passed to `gblink_alloc`: pins 1, 2, 3, external clock,
callback 7 with context 9. -/
def sample_def : gblink_def :=
  { pins := { serin := 1, serout := 2, clk := 3 }, source := 1, callback := 7,
    cb_context := 9 }

/-! ## Bookkeeping lemmas on effects and on steps that complete no byte -/

theorem step_rising (tw : Nat) (g : gblink) (now level : Nat) (cb : Nat → Nat → List Call) :
    step tw g (Event.rising now level cb) = gblink_shift_in tw cb g now level := rfl

theorem step_falling (tw : Nat) (g : gblink) :
    step tw g Event.falling = gblink_shift_out g := rfl

theorem step_api (tw : Nat) (g : gblink) (c : Call) :
    step tw g (Event.api c) = (applyCall g c, []) := rfl

theorem delivered_append (a b : List Effect) : delivered (a ++ b) = delivered a ++ delivered b := by
  induction a with
  | nil => rfl
  | cons x xs ih => cases x <;> simp [delivered, ih]

theorem driven_append (p : Nat) (a b : List Effect) :
    driven p (a ++ b) = driven p a ++ driven p b := by
  induction a with
  | nil => rfl
  | cons x xs ih =>
    cases x with
    | gpio_set_level q l => by_cases h : q = p <;> simp [driven, ih, h]
    | callback f c b => simp [driven, ih]

theorem shift_in_bit_frame (tw : Nat) (g : gblink) (now level : Nat) :
    (shift_in_bit tw g now level).out = g.out ∧
    (shift_in_bit tw g now level).out_buf = g.out_buf ∧
    (shift_in_bit tw g now level).out_buf_valid = g.out_buf_valid ∧
    (shift_in_bit tw g now level).nobyte = g.nobyte ∧
    (shift_in_bit tw g now level).serout = g.serout ∧
    (shift_in_bit tw g now level).callback = g.callback ∧
    (shift_in_bit tw g now level).cb_context = g.cb_context ∧
    (shift_in_bit tw g now level).bitclk_timeout_us = g.bitclk_timeout_us := by
  simp only [shift_in_bit]
  split <;> simp

theorem shift_in_quiet (tw : Nat) (cb : Nat → Nat → List Call) (g : gblink) (now level : Nat)
    (h : delivered (gblink_shift_in tw cb g now level).2 = []) :
    gblink_shift_in tw cb g now level = (shift_in_bit tw g now level, []) := by
  unfold gblink_shift_in at h ⊢
  by_cases h8 : (shift_in_bit tw g now level).shift = 8
  · simp [h8, delivered] at h
  · simp [h8]

theorem step_quiet (tw : Nat) (g : gblink) (e : Event) (he : e.isTransfer = false)
    (hq : delivered (step tw g e).2 = []) :
    (step tw g e).1.serout = g.serout ∧
    (step tw g e).1.out_buf = g.out_buf ∧
    (step tw g e).1.out_buf_valid = g.out_buf_valid ∧
    (step tw g e).1.out = out_after g.out (countFalling [e]) ∧
    driven g.serout (step tw g e).2 = levels g.out (countFalling [e]) := by
  cases e with
  | rising now level cb =>
    simp only [step_rising, step_falling, step_api] at hq ⊢
    rw [shift_in_quiet tw cb g now level hq]
    have hf := shift_in_bit_frame tw g now level
    simp [hf, countFalling, driven, out_after, levels]
  | falling => simp [step_rising, step_falling, step_api, gblink_shift_out, countFalling, driven, out_after, levels]
  | api c =>
    cases c <;> first
      | (simp [Event.isTransfer] at he; done)
      | simp [step_rising, step_falling, step_api, applyCall, gblink_clk_source_set, gblink_speed_set, gblink_timeout_set,
          gblink_nobyte_set, countFalling, driven, out_after, levels]

theorem out_after_add (n : Nat) : ∀ (m out : Nat),
    out_after out (m + n) = out_after (out_after out m) n := by
  intro m
  induction m with
  | zero => intro out; simp [out_after]
  | succ m ih => intro out; rw [Nat.add_right_comm]; simp [out_after, ih]

theorem levels_add (n : Nat) : ∀ (m out : Nat),
    levels out (m + n) = levels out m ++ levels (out_after out m) n := by
  intro m
  induction m with
  | zero => intro out; simp [out_after, levels]
  | succ m ih => intro out; rw [Nat.add_right_comm]; simp [out_after, levels, ih]

theorem countFalling_cons (e : Event) (es : List Event) :
    countFalling (e :: es) = countFalling [e] + countFalling es := by
  cases e <;> simp [countFalling]
  omega

theorem run_quiet (tw : Nat) : ∀ (es : List Event) (g : gblink),
    (∀ e ∈ es, e.isTransfer = false) → delivered (run tw g es).2 = [] →
    (run tw g es).1.serout = g.serout ∧
    (run tw g es).1.out_buf = g.out_buf ∧
    (run tw g es).1.out_buf_valid = g.out_buf_valid ∧
    (run tw g es).1.out = out_after g.out (countFalling es) ∧
    driven g.serout (run tw g es).2 = levels g.out (countFalling es) := by
  intro es
  induction es with
  | nil => intro g _ _; simp [run, countFalling, out_after, levels, driven]
  | cons e es ih =>
    intro g hes hq
    have hes2 : ∀ e ∈ es, e.isTransfer = false := fun x hx => hes x (List.mem_cons_of_mem _ hx)
    have he := hes e (List.mem_cons_self _ _)
    simp only [run, delivered_append, List.append_eq_nil] at hq
    obtain ⟨hq1, hq2⟩ := hq
    obtain ⟨i1, i2, i3, i4, i5⟩ := ih (step tw g e).1 hes2 hq2
    obtain ⟨s1, s2, s3, s4, s5⟩ := step_quiet tw g e he hq1
    simp only [run, driven_append]
    rw [countFalling_cons, out_after_add, levels_add]
    rw [s1] at i1 i5
    rw [s4] at i4 i5
    exact ⟨i1, i2.trans s2, i3.trans s3, i4, by rw [s5, i5]⟩

theorem msb_level (x : Nat) : (if x &&& 0x80 ≠ 0 then 1 else 0) = x / 128 % 2 := by
  have h2 : x &&& 128 = (x.testBit 7).toNat * 2 ^ 7 := Nat.and_two_pow x 7
  rw [Nat.testBit_to_div_mod] at h2
  rcases Nat.mod_two_eq_zero_or_one (x / 128) with h | h
  · simp [h] at h2 ⊢
    simp [h2]
  · simp [h] at h2 ⊢
    simp [h2]

theorem levels_eight (v : Nat) : levels v 8 = msb_first v := by
  simp only [levels, msb_level, msb_first, List.cons.injEq, and_true]
  refine ⟨trivial, ?_, ?_, ?_, ?_, ?_, ?_, ?_⟩ <;> omega

/-! ## The timer value and the `TickType_t` field `time` (C1, C2, C3) -/

theorem applyCall_frame (g : gblink) (c : Call) :
    (applyCall g c).serin = g.serin ∧ (applyCall g c).serout = g.serout ∧
    (applyCall g c).clk = g.clk ∧ (applyCall g c).in_ = g.in_ ∧
    (applyCall g c).time = g.time ∧ (applyCall g c).callback = g.callback ∧
    (applyCall g c).cb_context = g.cb_context := by
  cases c <;> simp [applyCall, gblink_clk_source_set, gblink_speed_set, gblink_timeout_set,
    gblink_transfer, gblink_nobyte_set]
  split <;> simp

theorem applyCalls_frame : ∀ (cs : List Call) (g : gblink),
    (applyCalls g cs).serin = g.serin ∧ (applyCalls g cs).serout = g.serout ∧
    (applyCalls g cs).clk = g.clk ∧ (applyCalls g cs).in_ = g.in_ ∧
    (applyCalls g cs).time = g.time ∧ (applyCalls g cs).callback = g.callback ∧
    (applyCalls g cs).cb_context = g.cb_context := by
  intro cs
  induction cs with
  | nil => intro g; simp [applyCalls]
  | cons c cs ih =>
    intro g
    obtain ⟨h1, h2, h3, h4, h5, h6, h7⟩ := ih (applyCall g c)
    obtain ⟨k1, k2, k3, k4, k5, k6, k7⟩ := applyCall_frame g c
    simp only [applyCalls]
    exact ⟨h1.trans k1, h2.trans k2, h3.trans k3, h4.trans k4, h5.trans k5, h6.trans k6,
      h7.trans k7⟩

theorem promote_frame (g : gblink) :
    (promote g).time = g.time ∧ (promote g).in_ = g.in_ ∧ (promote g).serout = g.serout ∧
    (promote g).callback = g.callback ∧ (promote g).cb_context = g.cb_context ∧
    (promote g).nobyte = g.nobyte ∧ (promote g).shift = 0 := by
  simp only [promote]
  split <;> simp

/-- The value that `gblink_shift_in` leaves in `time` is the timer value reduced to
the width of `TickType_t`, whether or not the timeout fired and whatever the
callback does. -/
theorem shift_in_time (tw : Nat) (cb : Nat → Nat → List Call) (g : gblink) (now level : Nat) :
    (gblink_shift_in tw cb g now level).1.time = now % 2 ^ 64 % 2 ^ tw := by
  have ht : (shift_in_bit tw g now level).time = now % 2 ^ 64 % 2 ^ tw := by
    simp [shift_in_bit]
  unfold gblink_shift_in
  by_cases h8 : (shift_in_bit tw g now level).shift = 8
  · simp only [h8, if_true]
    rw [(applyCalls_frame _ _).2.2.2.2.1, (promote_frame _).1, ht]
  · simp [h8, ht]

/-- Supporting C3: the stored `time` equals the timer value exactly when the value
fits `TickType_t`. -/
theorem shift_in_time_fits (tw : Nat) (cb : Nat → Nat → List Call) (g : gblink)
    (now level : Nat) (h64 : tw ≤ 64) (hfit : now < 2 ^ tw) :
    (gblink_shift_in tw cb g now level).1.time = now := by
  have h : now < 2 ^ 64 := lt_of_lt_of_le hfit (Nat.pow_le_pow_right (by decide) h64)
  rw [shift_in_time, Nat.mod_eq_of_lt h, Nat.mod_eq_of_lt hfit]

/-- C3, the code at the failing input.  With the 32-bit `TickType_t` of the ESP32, a
rising edge handled at timer value `2 ^ 32` us (about 71.6 minutes after boot), 6 us
after the previous edge so that the timeout does not fire, leaves `0` in `time`
and not the timer value `4294967296`. -/
theorem C3_time_truncated_at_2_pow_32 :
    elapsed_us 4294967296 4294967290 ≤ sample_handle.bitclk_timeout_us ∧
    (gblink_shift_in TickType_t_bits_esp32 cb_none
      { sample_handle with time := 4294967290 } 4294967296 1).1.time = 0 ∧
    (gblink_shift_in TickType_t_bits_esp32 cb_none
      { sample_handle with time := 4294967290 } 4294967296 1).1.time ≠ 4294967296 := by
  decide

/-- C1, the code at the failing input.  With the 32-bit `TickType_t` of the ESP32,
the levels 1,0,1,0,1,0,1,0 sampled on rising edges 10 us apart from timer value
`2 ^ 32` on, with `timeout_us = 200` and `bit_count = 0`, invoke the callback on no
edge and leave `bit_count = 1`; the same edges from timer value `1000` on deliver
`0xAA` once and leave `bit_count = 0`. -/
theorem C1_no_byte_past_tick_range :
    (run TickType_t_bits_esp32 sample_handle
      (edges_10us 4294967296 [1, 0, 1, 0, 1, 0, 1, 0])).2 = [] ∧
    (run TickType_t_bits_esp32 sample_handle
      (edges_10us 4294967296 [1, 0, 1, 0, 1, 0, 1, 0])).1.shift = 1 ∧
    (run TickType_t_bits_esp32 sample_handle
      (edges_10us 1000 [1, 0, 1, 0, 1, 0, 1, 0])).2 = [Effect.callback 7 9 0xAA] ∧
    (run TickType_t_bits_esp32 sample_handle
      (edges_10us 1000 [1, 0, 1, 0, 1, 0, 1, 0])).1.shift = 0 := by
  decide

/-- C2, the code at the failing input.  With the 32-bit `TickType_t` of the ESP32
and 3 bits shifted in at timer value `4294960000`, a rising edge at `2 ^ 32 + 1000`
(a gap above `timeout_us = 200`) restarts the accumulation (`bit_count = 1`,
`in_accum` = the sampled bit), but the 7 edges that follow 10 us apart invoke the
callback on no edge and leave `bit_count = 1`. -/
theorem C2_no_byte_after_gap_past_tick_range :
    (run TickType_t_bits_esp32
      { sample_handle with shift := 3, in_ := 5, time := 4294960000 }
      [Event.rising 4294968296 1 cb_none]).1.shift = 1 ∧
    (run TickType_t_bits_esp32
      { sample_handle with shift := 3, in_ := 5, time := 4294960000 }
      [Event.rising 4294968296 1 cb_none]).1.in_ = 1 ∧
    (run TickType_t_bits_esp32
      { sample_handle with shift := 3, in_ := 5, time := 4294960000 }
      (Event.rising 4294968296 1 cb_none ::
        edges_10us 4294968306 [0, 1, 0, 1, 0, 1, 0])).2 = [] ∧
    (run TickType_t_bits_esp32
      { sample_handle with shift := 3, in_ := 5, time := 4294960000 }
      (Event.rising 4294968296 1 cb_none ::
        edges_10us 4294968306 [0, 1, 0, 1, 0, 1, 0])).1.shift = 1 := by
  decide

/-! ## Handing over the next outbound byte (C4, C5, C6, C7) -/

theorem applyCall_wiring (g : gblink) (c : Call) : wiring (applyCall g c) = wiring g := by
  cases c <;> simp [applyCall, gblink_clk_source_set, gblink_speed_set, gblink_timeout_set,
    gblink_transfer, gblink_nobyte_set, wiring]
  split <;> simp

theorem applyCalls_wiring : ∀ (cs : List Call) (g : gblink),
    wiring (applyCalls g cs) = wiring g := by
  intro cs
  induction cs with
  | nil => intro g; rfl
  | cons c cs ih => intro g; exact (ih (applyCall g c)).trans (applyCall_wiring g c)

theorem shift_in_bit_wiring (tw : Nat) (g : gblink) (now level : Nat) :
    wiring (shift_in_bit tw g now level) = wiring g := by
  simp only [shift_in_bit, wiring]
  split <;> simp

theorem promote_wiring (g : gblink) : wiring (promote g) = wiring g := by
  simp only [promote, wiring]
  split <;> simp

theorem step_wiring (tw : Nat) (g : gblink) (e : Event) :
    wiring (step tw g e).1 = wiring g := by
  cases e with
  | rising now level cb =>
    simp only [step_rising, step_falling, step_api, gblink_shift_in]
    split
    · exact (applyCalls_wiring _ _).trans
        ((promote_wiring _).trans (shift_in_bit_wiring tw g now level))
    · exact shift_in_bit_wiring tw g now level
  | falling => simp [step_rising, step_falling, step_api, gblink_shift_out, wiring]
  | api c => exact applyCall_wiring g c

theorem run_wiring (tw : Nat) : ∀ (es : List Event) (g : gblink),
    wiring (run tw g es).1 = wiring g := by
  intro es
  induction es with
  | nil => intro g; rfl
  | cons e es ih => intro g; exact (ih (step tw g e).1).trans (step_wiring tw g e)

theorem run_cb_context (tw : Nat) (es : List Event) (g : gblink) :
    (run tw g es).1.cb_context = g.cb_context ∧ (run tw g es).1.callback = g.callback ∧
    (run tw g es).1.serout = g.serout := by
  have h := run_wiring tw es g
  simp only [wiring, Prod.mk.injEq] at h
  exact ⟨h.2.2.2.2, h.2.2.2.1, h.2.1⟩

/-- C4.  `gblink_transfer(v)` called with `bit_count == 0` puts `v` into `out_active`
and clears `out_pending_valid`; whatever rising edges and setter calls follow
before the next falling edge without completing a byte, nothing is driven by them
and that falling edge drives `serial_out` with bit 7 of `v`. -/
theorem C4_transfer_at_byte_boundary (tw : Nat) (g : gblink) (v : Nat) (es : List Event)
    (hs : g.shift = 0) (hv : v < 256)
    (hes : ∀ e ∈ es, e.isTransfer = false) (hnf : countFalling es = 0)
    (hq : delivered (run tw (gblink_transfer g v) es).2 = []) :
    (gblink_transfer g v).out = v ∧ (gblink_transfer g v).out_buf_valid = false ∧
    driven g.serout (run tw (gblink_transfer g v) es).2 = [] ∧
    (gblink_shift_out (run tw (gblink_transfer g v) es).1).2 =
      [Effect.gpio_set_level g.serout (v / 128 % 2)] := by
  have ht : gblink_transfer g v = { g with out := v, out_buf_valid := false } := by
    simp [gblink_transfer, hs, Nat.mod_eq_of_lt hv]
  obtain ⟨r1, _, _, r4, r5⟩ := run_quiet tw es (gblink_transfer g v) hes hq
  rw [hnf] at r4 r5
  simp only [out_after, levels] at r4 r5
  refine ⟨by rw [ht], by rw [ht], ?_, ?_⟩
  · rw [ht] at r5 ⊢
    exact r5
  · simp only [gblink_shift_out, r1, r4, msb_level]
    rw [ht]

/-- C4 at a concrete input: `gblink_transfer(0xA5)` at a byte boundary, then a
rising edge and a setter call, then the falling edge drives level 1 on pin 2. -/
theorem C4_transfer_at_byte_boundary_witness :
    (gblink_transfer sample_handle 0xA5).out = 0xA5 ∧
    (gblink_transfer sample_handle 0xA5).out_buf_valid = false ∧
    driven 2 (run 32 (gblink_transfer sample_handle 0xA5)
      [Event.rising 10 1 cb_none, Event.api (Call.nobyte_set 3)]).2 = [] ∧
    (gblink_shift_out (run 32 (gblink_transfer sample_handle 0xA5)
      [Event.rising 10 1 cb_none, Event.api (Call.nobyte_set 3)]).1).2 =
      [Effect.gpio_set_level 2 1] :=
  C4_transfer_at_byte_boundary 32 sample_handle 0xA5
    [Event.rising 10 1 cb_none, Event.api (Call.nobyte_set 3)]
    (by decide) (by decide) (by simp [Event.isTransfer]) (by decide) (by decide)

theorem shift_in_completes (tw : Nat) (cb : Nat → Nat → List Call) (g : gblink) (now level : Nat)
    (h : delivered (gblink_shift_in tw cb g now level).2 ≠ []) :
    (shift_in_bit tw g now level).shift = 8 ∧
    gblink_shift_in tw cb g now level =
      (applyCalls (promote (shift_in_bit tw g now level))
          (cb g.cb_context (shift_in_bit tw g now level).in_),
        [Effect.callback g.callback g.cb_context (shift_in_bit tw g now level).in_]) := by
  have hw := shift_in_bit_wiring tw g now level
  have hp := promote_frame (shift_in_bit tw g now level)
  simp only [wiring, Prod.mk.injEq] at hw
  unfold gblink_shift_in at h ⊢
  by_cases h8 : (shift_in_bit tw g now level).shift = 8
  · simp [h8, hp, hw]
  · simp [h8, delivered] at h

theorem step_eqExceptPending (tw : Nat) (a b : gblink) (e : Event) (h : eqExceptPending a b)
    (he : e.isTransfer = false) (hq : delivered (step tw a e).2 = []) :
    (step tw b e).2 = (step tw a e).2 ∧ eqExceptPending (step tw a e).1 (step tw b e).1 := by
  obtain ⟨a1, a2, a3, a4, a5, a6, a7, a8, a9, a10, a11, a12, a13, a14, a15, a16, a17⟩ := a
  obtain ⟨b1, b2, b3, b4, b5, b6, b7, b8, b9, b10, b11, b12, b13, b14, b15, b16, b17⟩ := b
  simp only [eqExceptPending, gblink.mk.injEq, and_true, true_and] at h
  obtain ⟨rfl, rfl, rfl, rfl, rfl, rfl, rfl, rfl, rfl, rfl, rfl, rfl, rfl, rfl, rfl⟩ := h
  cases e with
  | rising now level cb =>
    simp only [step_rising, step_falling, step_api, gblink_shift_in, shift_in_bit] at hq ⊢
    split_ifs at hq ⊢ <;> simp_all [eqExceptPending, delivered]
  | falling => simp [step_rising, step_falling, step_api, gblink_shift_out, eqExceptPending]
  | api c =>
    cases c <;> first
      | (simp [Event.isTransfer] at he; done)
      | simp [step_rising, step_falling, step_api, applyCall, gblink_clk_source_set, gblink_speed_set, gblink_timeout_set,
          gblink_nobyte_set, eqExceptPending]

theorem run_eqExceptPending (tw : Nat) : ∀ (es : List Event) (a b : gblink),
    eqExceptPending a b → (∀ e ∈ es, e.isTransfer = false) →
    delivered (run tw a es).2 = [] →
    (run tw b es).2 = (run tw a es).2 ∧ eqExceptPending (run tw a es).1 (run tw b es).1 := by
  intro es
  induction es with
  | nil => intro a b h _ _; exact ⟨rfl, h⟩
  | cons e es ih =>
    intro a b h hes hq
    have hes2 : ∀ e ∈ es, e.isTransfer = false := fun x hx => hes x (List.mem_cons_of_mem _ hx)
    simp only [run, delivered_append, List.append_eq_nil] at hq
    obtain ⟨s1, s2⟩ := step_eqExceptPending tw a b e h (hes e (List.mem_cons_self _ _)) hq.1
    obtain ⟨i1, i2⟩ := ih (step tw a e).1 (step tw b e).1 s2 hes2 hq.2
    simp only [run]
    exact ⟨by rw [s1, i1], i2⟩

theorem applyCalls_no_transfer : ∀ (cs : List Call) (g : gblink),
    (∀ c ∈ cs, c.isTransfer = false) →
    (applyCalls g cs).out = g.out ∧ (applyCalls g cs).out_buf = g.out_buf ∧
    (applyCalls g cs).out_buf_valid = g.out_buf_valid := by
  intro cs
  induction cs with
  | nil => intro g _; simp [applyCalls]
  | cons c cs ih =>
    intro g hcs
    obtain ⟨h1, h2, h3⟩ := ih (applyCall g c) fun x hx => hcs x (List.mem_cons_of_mem _ hx)
    have hc := hcs c (List.mem_cons_self _ _)
    simp only [applyCalls, h1, h2, h3]
    cases c <;> first
      | (simp [Call.isTransfer] at hc; done)
      | simp [applyCall, gblink_clk_source_set, gblink_speed_set, gblink_timeout_set,
          gblink_nobyte_set]

/-- C5.  `gblink_transfer(v)` called with `bit_count > 0` leaves `out_active` as it
is and stores `v` with `out_pending_valid` set.  Up to the next byte completion
(events `es`: edges and setter calls that complete no byte) the effects, the driven
levels among them, and `out_active` are those of the run without the call.  When
the next rising edge completes the byte, the callback is entered with
`out_active == v` and `out_pending_valid == false`, and that is the state in which
the handler returns when the callback does not call `gblink_transfer` itself. -/
theorem C5_transfer_mid_byte (tw : Nat) (g : gblink) (v : Nat) (es : List Event)
    (now level : Nat) (cb : Nat → Nat → List Call)
    (hs : 0 < g.shift) (hv : v < 256)
    (hes : ∀ e ∈ es, e.isTransfer = false)
    (hq : delivered (run tw (gblink_transfer g v) es).2 = [])
    (hc : delivered (gblink_shift_in tw cb (run tw (gblink_transfer g v) es).1 now level).2
      ≠ []) :
    (gblink_transfer g v).out = g.out ∧ (gblink_transfer g v).out_buf = v ∧
    (gblink_transfer g v).out_buf_valid = true ∧
    (run tw (gblink_transfer g v) es).2 = (run tw g es).2 ∧
    (run tw (gblink_transfer g v) es).1.out = (run tw g es).1.out ∧
    (promote (shift_in_bit tw (run tw (gblink_transfer g v) es).1 now level)).out = v ∧
    (promote (shift_in_bit tw (run tw (gblink_transfer g v) es).1 now level)).out_buf_valid
      = false ∧
    ((∀ c ∈ cb g.cb_context
          (shift_in_bit tw (run tw (gblink_transfer g v) es).1 now level).in_,
        c.isTransfer = false) →
      (gblink_shift_in tw cb (run tw (gblink_transfer g v) es).1 now level).1.out = v ∧
      (gblink_shift_in tw cb (run tw (gblink_transfer g v) es).1 now level).1.out_buf_valid
        = false) := by
  have hs0 : g.shift ≠ 0 := Nat.pos_iff_ne_zero.mp hs
  have ht : gblink_transfer g v = { g with out_buf := v, out_buf_valid := true } := by
    simp [gblink_transfer, hs0, Nat.mod_eq_of_lt hv]
  have hrel : eqExceptPending (gblink_transfer g v) g := by
    rw [ht]; simp [eqExceptPending]
  obtain ⟨e1, e2⟩ := run_eqExceptPending tw es _ _ hrel hes hq
  obtain ⟨_, q2, q3, _, _⟩ := run_quiet tw es (gblink_transfer g v) hes hq
  have hbuf : (run tw (gblink_transfer g v) es).1.out_buf = v := by rw [q2, ht]
  have hval : (run tw (gblink_transfer g v) es).1.out_buf_valid = true := by rw [q3, ht]
  have hf := shift_in_bit_frame tw (run tw (gblink_transfer g v) es).1 now level
  have hp1 : (promote (shift_in_bit tw (run tw (gblink_transfer g v) es).1 now level)).out
      = v := by
    simp only [promote, hf.2.2.1, hval, if_true, hf.2.1, hbuf]
  have hp2 : (promote (shift_in_bit tw (run tw (gblink_transfer g v) es).1 now level)).out_buf_valid
      = false := by
    simp only [promote, hf.2.2.1, hval, if_true]
  have hout : (run tw (gblink_transfer g v) es).1.out = (run tw g es).1.out := by
    unfold eqExceptPending at e2
    have h2 := congrArg gblink.out e2
    exact h2
  refine ⟨by rw [ht], by rw [ht], by rw [ht], e1.symm, hout, hp1, hp2, ?_⟩
  intro hcb
  obtain ⟨_, heq⟩ := shift_in_completes tw cb _ now level hc
  rw [(run_cb_context tw es (gblink_transfer g v)).1] at heq
  have hctx : (gblink_transfer g v).cb_context = g.cb_context := by rw [ht]
  rw [hctx] at heq
  obtain ⟨n1, _, n3⟩ := applyCalls_no_transfer _
    (promote (shift_in_bit tw (run tw (gblink_transfer g v) es).1 now level)) hcb
  rw [heq]
  exact ⟨n1.trans hp1, n3.trans hp2⟩

/-- C5 at a concrete input: 6 bits in, `0x81` being clocked out, `gblink_transfer(0x3C)`,
then falling, rising, falling; the rising edge after that completes the byte. -/
theorem C5_transfer_mid_byte_witness :
    (gblink_transfer mid_byte_handle 0x3C).out = 0x81 ∧
    (run 32 (gblink_transfer mid_byte_handle 0x3C)
      [Event.falling, Event.rising 110 1 cb_none, Event.falling]).2 =
      (run 32 mid_byte_handle [Event.falling, Event.rising 110 1 cb_none, Event.falling]).2 ∧
    (gblink_shift_in 32 cb_none (run 32 (gblink_transfer mid_byte_handle 0x3C)
      [Event.falling, Event.rising 110 1 cb_none, Event.falling]).1 120 0).1.out = 0x3C ∧
    (gblink_shift_in 32 cb_none (run 32 (gblink_transfer mid_byte_handle 0x3C)
      [Event.falling, Event.rising 110 1 cb_none, Event.falling]).1 120 0).1.out_buf_valid
      = false :=
  have h := C5_transfer_mid_byte 32 mid_byte_handle 0x3C
    [Event.falling, Event.rising 110 1 cb_none, Event.falling] 120 0 cb_none
    (by decide) (by decide) (by simp [Event.isTransfer]) (by decide) (by decide)
  ⟨h.1, h.2.2.2.1, (h.2.2.2.2.2.2.2 (by simp [cb_none])).1,
    (h.2.2.2.2.2.2.2 (by simp [cb_none])).2⟩

theorem applyCalls_append : ∀ (a b : List Call) (g : gblink),
    applyCalls g (a ++ b) = applyCalls (applyCalls g a) b := by
  intro a
  induction a with
  | nil => intro b g; rfl
  | cons c cs ih => intro b g; exact ih b (applyCall g c)

theorem applyCalls_shift_zero : ∀ (cs : List Call) (g : gblink),
    g.shift = 0 → (applyCalls g cs).shift = 0 := by
  intro cs
  induction cs with
  | nil => intro g h; exact h
  | cons c cs ih =>
    intro g h
    simp only [applyCalls]
    apply ih
    cases c <;> simp [applyCall, gblink_clk_source_set, gblink_speed_set, gblink_timeout_set,
      gblink_transfer, gblink_nobyte_set, h]

theorem applyCalls_last_transfer (g : gblink) (pre post : List Call) (v : Nat)
    (hs : g.shift = 0) (hpost : ∀ c ∈ post, c.isTransfer = false) :
    (applyCalls g (pre ++ Call.transfer v :: post)).out = v % 256 ∧
    (applyCalls g (pre ++ Call.transfer v :: post)).out_buf_valid = false := by
  have h0 := applyCalls_shift_zero pre g hs
  rw [applyCalls_append]
  simp only [applyCalls]
  obtain ⟨n1, _, n3⟩ := applyCalls_no_transfer post
    (applyCall (applyCalls g pre) (Call.transfer v)) hpost
  rw [n1, n3]
  simp [applyCall, gblink_transfer, h0]

/-- C6.  When a rising edge completes a byte, the callback is entered after the
promotion (`out_active` already holds the pending byte, or the idle byte when none
is pending).  If the callback calls `gblink_transfer(v)`, as the last such call it
makes, the handler returns with `out_active == v` and nothing pending, and the 8
falling edges that follow before the next byte completion (events `es`: 8 falling
edges, with rising edges and setter calls that complete no byte) drive the bits of
`v`, most significant first. -/
theorem C6_transfer_inside_callback (tw : Nat) (g : gblink) (now level : Nat)
    (cb : Nat → Nat → List Call) (v : Nat) (pre post : List Call) (es : List Event)
    (hc : delivered (gblink_shift_in tw cb g now level).2 ≠ [])
    (hcb : cb g.cb_context (shift_in_bit tw g now level).in_ = pre ++ Call.transfer v :: post)
    (hpost : ∀ c ∈ post, c.isTransfer = false) (hv : v < 256)
    (hes : ∀ e ∈ es, e.isTransfer = false)
    (hq : delivered (run tw (gblink_shift_in tw cb g now level).1 es).2 = [])
    (h8 : countFalling es = 8) :
    (promote (shift_in_bit tw g now level)).out
      = (if g.out_buf_valid then g.out_buf else g.nobyte) ∧
    (gblink_shift_in tw cb g now level).1.out = v ∧
    (gblink_shift_in tw cb g now level).1.out_buf_valid = false ∧
    driven g.serout (run tw (gblink_shift_in tw cb g now level).1 es).2 = msb_first v := by
  obtain ⟨_, heq⟩ := shift_in_completes tw cb g now level hc
  have hf := shift_in_bit_frame tw g now level
  have hp := promote_frame (shift_in_bit tw g now level)
  obtain ⟨l1, l2⟩ := applyCalls_last_transfer (promote (shift_in_bit tw g now level))
    pre post v hp.2.2.2.2.2.2 hpost
  rw [Nat.mod_eq_of_lt hv] at l1
  have hout : (gblink_shift_in tw cb g now level).1.out = v := by rw [heq, hcb]; exact l1
  have hser : (gblink_shift_in tw cb g now level).1.serout = g.serout := by
    have hw := step_wiring tw g (Event.rising now level cb)
    simp only [wiring, Prod.mk.injEq, step_rising, step_falling, step_api] at hw
    exact hw.2.1
  obtain ⟨_, _, _, _, r5⟩ := run_quiet tw es (gblink_shift_in tw cb g now level).1 hes hq
  rw [hser, hout, h8, levels_eight] at r5
  refine ⟨?_, hout, by rw [heq, hcb]; exact l2, r5⟩
  simp only [promote, hf]
  split <;> rfl

/-- C6 at the scenario of the specification: idle byte `0xFF`, timeout 200 us, the
levels 1,0,1,0,1,0,1,0 sampled 10 us apart; the callback of the 8th edge calls
`gblink_transfer(0x3C)` and the next 8 falling edges drive 0,0,1,1,1,1,0,0. -/
theorem C6_transfer_inside_callback_witness :
    (gblink_shift_in 32 (cb_transfer 0x3C)
      (run 32 sample_handle (edges_10us 1000 [1, 0, 1, 0, 1, 0, 1])).1 1070 0).1.out = 0x3C ∧
    driven 2 (run 32 (gblink_shift_in 32 (cb_transfer 0x3C)
      (run 32 sample_handle (edges_10us 1000 [1, 0, 1, 0, 1, 0, 1])).1 1070 0).1
      (clock_pairs 1070 1 7 ++ [Event.falling])).2 = [0, 0, 1, 1, 1, 1, 0, 0] :=
  have h := C6_transfer_inside_callback 32
    (run 32 sample_handle (edges_10us 1000 [1, 0, 1, 0, 1, 0, 1])).1 1070 0
    (cb_transfer 0x3C) 0x3C [] [] (clock_pairs 1070 1 7 ++ [Event.falling])
    (by decide) (by rfl) (by simp) (by decide) (by decide) (by decide) (by decide)
  ⟨h.2.1, h.2.2.2⟩

theorem step_quiet_nobyte (tw : Nat) (g : gblink) (e : Event)
    (hq : delivered (step tw g e).2 = []) :
    (step tw g e).1.nobyte = idle_after g.nobyte [e] := by
  cases e with
  | rising now level cb =>
    simp only [step_rising, step_falling, step_api] at hq ⊢
    rw [shift_in_quiet tw cb g now level hq]
    simp [(shift_in_bit_frame tw g now level).2.2.2.1, idle_after]
  | falling => simp [step_rising, step_falling, step_api, gblink_shift_out, idle_after]
  | api c =>
    cases c <;> simp [step_rising, step_falling, step_api, applyCall, gblink_clk_source_set, gblink_speed_set,
      gblink_timeout_set, gblink_transfer, gblink_nobyte_set, idle_after]
    split <;> rfl

theorem idle_after_cons (nb : Nat) (e : Event) (es : List Event) :
    idle_after nb (e :: es) = idle_after (idle_after nb [e]) es := by
  cases e with
  | rising now level cb => simp [idle_after]
  | falling => simp [idle_after]
  | api c => cases c <;> simp [idle_after]

theorem run_quiet_nobyte (tw : Nat) : ∀ (es : List Event) (g : gblink),
    delivered (run tw g es).2 = [] → (run tw g es).1.nobyte = idle_after g.nobyte es := by
  intro es
  induction es with
  | nil => intro g _; rfl
  | cons e es ih =>
    intro g hq
    simp only [run, delivered_append, List.append_eq_nil] at hq
    simp only [run]
    rw [ih (step tw g e).1 hq.2, step_quiet_nobyte tw g e hq.1, ← idle_after_cons]

/-- C7.  Take a handle with nothing pending (`out_pending_valid == false`, as right
after a byte completion), let edges and setter calls follow that complete no byte
and include no call of `gblink_transfer` (events `es`), and let the next rising
edge complete a byte with a callback that does not call `gblink_transfer` either.
Then the handler returns with `out_active` equal to the idle byte in force at that
completion, which is the value last set by `gblink_nobyte_set`, and the 8 falling
edges that follow before the next completion (events `es2`) drive the bits of that
idle byte, most significant first. -/
theorem C7_idle_byte_without_transfer (tw : Nat) (g : gblink) (es : List Event)
    (now level : Nat) (cb : Nat → Nat → List Call) (es2 : List Event)
    (hv : g.out_buf_valid = false)
    (hes : ∀ e ∈ es, e.isTransfer = false) (hq : delivered (run tw g es).2 = [])
    (hc : delivered (gblink_shift_in tw cb (run tw g es).1 now level).2 ≠ [])
    (hcb : ∀ c ∈ cb g.cb_context (shift_in_bit tw (run tw g es).1 now level).in_,
      c.isTransfer = false)
    (hes2 : ∀ e ∈ es2, e.isTransfer = false)
    (hq2 : delivered (run tw (gblink_shift_in tw cb (run tw g es).1 now level).1 es2).2 = [])
    (h8 : countFalling es2 = 8) :
    (run tw g es).1.nobyte = idle_after g.nobyte es ∧
    (gblink_shift_in tw cb (run tw g es).1 now level).1.out = idle_after g.nobyte es ∧
    (gblink_shift_in tw cb (run tw g es).1 now level).1.out_buf_valid = false ∧
    driven g.serout (run tw (gblink_shift_in tw cb (run tw g es).1 now level).1 es2).2
      = msb_first (idle_after g.nobyte es) := by
  have hnb := run_quiet_nobyte tw es g hq
  obtain ⟨_, _, q3, _, _⟩ := run_quiet tw es g hes hq
  rw [hv] at q3
  obtain ⟨_, heq⟩ := shift_in_completes tw cb _ now level hc
  rw [(run_cb_context tw es g).1] at heq
  have hf := shift_in_bit_frame tw (run tw g es).1 now level
  have hp1 : (promote (shift_in_bit tw (run tw g es).1 now level)).out
      = idle_after g.nobyte es := by
    simp [promote, hf, q3, hnb]
  have hp2 : (promote (shift_in_bit tw (run tw g es).1 now level)).out_buf_valid = false := by
    simp [promote, hf, q3]
  obtain ⟨n1, _, n3⟩ := applyCalls_no_transfer _
    (promote (shift_in_bit tw (run tw g es).1 now level)) hcb
  have hout : (gblink_shift_in tw cb (run tw g es).1 now level).1.out
      = idle_after g.nobyte es := by
    rw [heq]; exact n1.trans hp1
  have hser : (gblink_shift_in tw cb (run tw g es).1 now level).1.serout = g.serout := by
    have hw := step_wiring tw (run tw g es).1 (Event.rising now level cb)
    simp only [wiring, Prod.mk.injEq, step_rising, step_falling, step_api] at hw
    exact hw.2.1.trans (run_cb_context tw es g).2.2
  obtain ⟨_, _, _, _, r5⟩ := run_quiet tw es2 _ hes2 hq2
  rw [hser, hout, h8, levels_eight] at r5
  exact ⟨hnb, hout, by rw [heq]; exact n3.trans hp2, r5⟩

/-- C7 at the scenario of the specification: the idle byte set to `0xFF`, the
levels 1,0,1,0,1,0,1,0 sampled 10 us apart with no call of `gblink_transfer`; the
outbound byte after the completion is `0xFF`, driven as eight levels 1. -/
theorem C7_idle_byte_without_transfer_witness :
    (gblink_shift_in 32 cb_none (run 32 sample_handle
      (Event.api (Call.nobyte_set 0xFF) :: edges_10us 1000 [1, 0, 1, 0, 1, 0, 1])).1
      1070 0).1.out = 0xFF ∧
    driven 2 (run 32 (gblink_shift_in 32 cb_none (run 32 sample_handle
      (Event.api (Call.nobyte_set 0xFF) :: edges_10us 1000 [1, 0, 1, 0, 1, 0, 1])).1
      1070 0).1 (clock_pairs 1070 1 7 ++ [Event.falling])).2 = [1, 1, 1, 1, 1, 1, 1, 1] :=
  have h := C7_idle_byte_without_transfer 32 sample_handle
    (Event.api (Call.nobyte_set 0xFF) :: edges_10us 1000 [1, 0, 1, 0, 1, 0, 1]) 1070 0
    cb_none (clock_pairs 1070 1 7 ++ [Event.falling])
    (by decide) (by decide) (by decide) (by decide) (by simp [cb_none]) (by decide)
    (by decide) (by decide)
  ⟨h.2.1, h.2.2.2⟩

/-! ## Two calls of `gblink_transfer` before a byte boundary (C8) -/

theorem applyCall_eqExceptOut (a b : gblink) (c : Call) (h : eqExceptOut a b) :
    eqExceptOut (applyCall a c) (applyCall b c) := by
  obtain ⟨a1, a2, a3, a4, a5, a6, a7, a8, a9, a10, a11, a12, a13, a14, a15, a16, a17⟩ := a
  obtain ⟨b1, b2, b3, b4, b5, b6, b7, b8, b9, b10, b11, b12, b13, b14, b15, b16, b17⟩ := b
  simp only [eqExceptOut, gblink.mk.injEq, and_true, true_and] at h
  obtain ⟨rfl, rfl, rfl, rfl, rfl, rfl, rfl, rfl, rfl, rfl, rfl, rfl, rfl, rfl, rfl, rfl⟩ := h
  cases c <;> simp [applyCall, gblink_clk_source_set, gblink_speed_set, gblink_timeout_set,
    gblink_transfer, gblink_nobyte_set, eqExceptOut]
  split <;> simp

theorem applyCalls_eqExceptOut : ∀ (cs : List Call) (a b : gblink),
    eqExceptOut a b → eqExceptOut (applyCalls a cs) (applyCalls b cs) := by
  intro cs
  induction cs with
  | nil => intro a b h; exact h
  | cons c cs ih => intro a b h; exact ih _ _ (applyCall_eqExceptOut a b c h)

theorem step_eqExceptOut (tw : Nat) (a b : gblink) (e : Event) (h : eqExceptOut a b) :
    eqExceptOut (step tw a e).1 (step tw b e).1 ∧
    delivered (step tw b e).2 = delivered (step tw a e).2 := by
  cases e with
  | api c => exact ⟨applyCall_eqExceptOut a b c h, rfl⟩
  | falling =>
    unfold eqExceptOut at h ⊢
    simp only [step_rising, step_falling, step_api, gblink_shift_out, delivered, and_true]
    exact h
  | rising now level cb =>
    obtain ⟨a1, a2, a3, a4, a5, a6, a7, a8, a9, a10, a11, a12, a13, a14, a15, a16, a17⟩ := a
    obtain ⟨b1, b2, b3, b4, b5, b6, b7, b8, b9, b10, b11, b12, b13, b14, b15, b16, b17⟩ := b
    simp only [eqExceptOut, gblink.mk.injEq, and_true, true_and] at h
    obtain ⟨rfl, rfl, rfl, rfl, rfl, rfl, rfl, rfl, rfl, rfl, rfl, rfl, rfl, rfl, rfl, rfl⟩ := h
    simp only [step_rising, step_falling, step_api, gblink_shift_in, shift_in_bit, promote]
    split_ifs <;> simp_all [eqExceptOut, delivered]

theorem run_eqExceptOut (tw : Nat) : ∀ (es : List Event) (a b : gblink),
    eqExceptOut a b →
    eqExceptOut (run tw a es).1 (run tw b es).1 ∧
    delivered (run tw b es).2 = delivered (run tw a es).2 := by
  intro es
  induction es with
  | nil => intro a b h; exact ⟨h, rfl⟩
  | cons e es ih =>
    intro a b h
    obtain ⟨s1, s2⟩ := step_eqExceptOut tw a b e h
    obtain ⟨i1, i2⟩ := ih (step tw a e).1 (step tw b e).1 s1
    simp only [run, delivered_append]
    exact ⟨i1, by rw [s2, i2]⟩

theorem obsEq_refl (a : gblink) : obsEq a a := ⟨rfl, fun _ => rfl⟩

theorem obsEq_cases (a b : gblink) (h : obsEq a b) :
    a = b ∨ (a.out_buf_valid = false ∧ b = { a with out_buf := b.out_buf }) := by
  obtain ⟨a1, a2, a3, a4, a5, a6, a7, a8, a9, a10, a11, a12, a13, a14, a15, a16, a17⟩ := a
  obtain ⟨b1, b2, b3, b4, b5, b6, b7, b8, b9, b10, b11, b12, b13, b14, b15, b16, b17⟩ := b
  simp only [obsEq, gblink.mk.injEq, and_true, true_and] at h
  obtain ⟨⟨rfl, rfl, rfl, rfl, rfl, rfl, rfl, rfl, rfl, rfl, rfl, rfl, rfl, rfl, rfl, rfl⟩, h2⟩
    := h
  cases a7 with
  | false => right; simp
  | true => left; simp [h2 rfl]

theorem applyCall_obsEq (a b : gblink) (c : Call) (h : obsEq a b) :
    obsEq (applyCall a c) (applyCall b c) := by
  rcases obsEq_cases a b h with rfl | ⟨hv, hb⟩
  · exact obsEq_refl _
  · rw [hb]
    generalize b.out_buf = x
    cases c <;> simp [applyCall, gblink_clk_source_set, gblink_speed_set, gblink_timeout_set,
      gblink_transfer, gblink_nobyte_set, obsEq, hv]
    split <;> simp [hv]

theorem applyCalls_obsEq : ∀ (cs : List Call) (a b : gblink),
    obsEq a b → obsEq (applyCalls a cs) (applyCalls b cs) := by
  intro cs
  induction cs with
  | nil => intro a b h; exact h
  | cons c cs ih => intro a b h; exact ih _ _ (applyCall_obsEq a b c h)

theorem step_obsEq (tw : Nat) (a b : gblink) (e : Event) (h : obsEq a b) :
    obsEq (step tw a e).1 (step tw b e).1 ∧ (step tw b e).2 = (step tw a e).2 := by
  rcases obsEq_cases a b h with rfl | ⟨hv, hb⟩
  · exact ⟨obsEq_refl _, rfl⟩
  · cases e with
    | api c => exact ⟨applyCall_obsEq a b c h, rfl⟩
    | falling =>
      rw [hb]
      generalize b.out_buf = x
      simp [step_rising, step_falling, step_api, gblink_shift_out, obsEq, hv]
    | rising now level cb =>
      rw [hb]
      generalize b.out_buf = x
      have hf := shift_in_bit_frame tw a now level
      have hc : shift_in_bit tw { a with out_buf := x } now level
          = { shift_in_bit tw a now level with out_buf := x } := by
        simp only [shift_in_bit]
        split <;> rfl
      have hsv : (shift_in_bit tw a now level).out_buf_valid = false := by rw [hf.2.2.1, hv]
      have hpc : promote { shift_in_bit tw a now level with out_buf := x }
          = { promote (shift_in_bit tw a now level) with out_buf := x } := by
        simp [promote, hsv]
      have hpv : (promote (shift_in_bit tw a now level)).out_buf_valid = false := by
        simp [promote, hsv]
      simp only [step_rising, step_falling, step_api, gblink_shift_in, hc, hpc]
      split
      · constructor
        · apply applyCalls_obsEq
          simp [obsEq, hpv]
        · rfl
      · simp [obsEq, hsv]

theorem run_obsEq (tw : Nat) : ∀ (es : List Event) (a b : gblink),
    obsEq a b → obsEq (run tw a es).1 (run tw b es).1 ∧ (run tw b es).2 = (run tw a es).2 := by
  intro es
  induction es with
  | nil => intro a b h; exact ⟨h, rfl⟩
  | cons e es ih =>
    intro a b h
    obtain ⟨s1, s2⟩ := step_obsEq tw a b e h
    obtain ⟨i1, i2⟩ := ih (step tw a e).1 (step tw b e).1 s1
    simp only [run]
    exact ⟨i1, by rw [s2, i2]⟩

theorem transfer_of_eqExceptOut (a b : gblink) (v : Nat) (h : eqExceptOut a b)
    (hs : a.shift = 0) : gblink_transfer a v = gblink_transfer b v := by
  obtain ⟨a1, a2, a3, a4, a5, a6, a7, a8, a9, a10, a11, a12, a13, a14, a15, a16, a17⟩ := a
  obtain ⟨b1, b2, b3, b4, b5, b6, b7, b8, b9, b10, b11, b12, b13, b14, b15, b16, b17⟩ := b
  simp only [eqExceptOut, gblink.mk.injEq, and_true, true_and] at h
  obtain ⟨rfl, rfl, rfl, rfl, rfl, rfl, rfl, rfl, rfl, rfl, rfl, rfl, rfl, rfl, rfl, rfl⟩ := h
  simp only at hs
  simp [gblink_transfer, hs]

theorem transfer_of_eqExceptPending (a b : gblink) (v : Nat) (h : eqExceptPending a b) :
    obsEq (gblink_transfer a v) (gblink_transfer b v) := by
  obtain ⟨a1, a2, a3, a4, a5, a6, a7, a8, a9, a10, a11, a12, a13, a14, a15, a16, a17⟩ := a
  obtain ⟨b1, b2, b3, b4, b5, b6, b7, b8, b9, b10, b11, b12, b13, b14, b15, b16, b17⟩ := b
  simp only [eqExceptPending, gblink.mk.injEq, and_true, true_and] at h
  obtain ⟨rfl, rfl, rfl, rfl, rfl, rfl, rfl, rfl, rfl, rfl, rfl, rfl, rfl, rfl, rfl⟩ := h
  simp only [gblink_transfer]
  split <;> simp [obsEq]

theorem transfer_result (g : gblink) (v : Nat) (hv : v < 256) :
    ((gblink_transfer g v).out = v ∧ (gblink_transfer g v).out_buf_valid = false) ∨
    ((gblink_transfer g v).out_buf = v ∧ (gblink_transfer g v).out_buf_valid = true) := by
  simp only [gblink_transfer]
  split
  · left; simp [Nat.mod_eq_of_lt hv]
  · right; simp [Nat.mod_eq_of_lt hv]

/-- C8, counterexample.  `gblink_transfer(0xFF)` at a byte boundary, a falling and a
rising edge (no byte completes), then `gblink_transfer(0x00)`: the first value stays
in `out_active`, the second is pending, and the 7 falling edges that follow before
the next completion drive 1,1,1,1,1,1,1, the remaining bits of the first value
(with `0x00` as first value they drive 0,0,0,0,0,0,0); the second value follows as
the next byte. -/
theorem C8_first_value_is_clocked_out :
    (run 32 sample_handle [Event.api (Call.transfer 0xFF), Event.falling,
      Event.rising 10 1 cb_none]).2 = [Effect.gpio_set_level 2 1] ∧
    (run 32 sample_handle [Event.api (Call.transfer 0xFF), Event.falling,
      Event.rising 10 1 cb_none, Event.api (Call.transfer 0x00)]).1.out = 0xFE ∧
    (run 32 sample_handle [Event.api (Call.transfer 0xFF), Event.falling,
      Event.rising 10 1 cb_none, Event.api (Call.transfer 0x00)]).1.out_buf_valid = true ∧
    (run 32 (run 32 sample_handle [Event.api (Call.transfer 0xFF), Event.falling,
      Event.rising 10 1 cb_none, Event.api (Call.transfer 0x00)]).1
      (clock_pairs 10 1 6 ++ [Event.falling])).2
      = [Effect.gpio_set_level 2 1, Effect.gpio_set_level 2 1, Effect.gpio_set_level 2 1,
         Effect.gpio_set_level 2 1, Effect.gpio_set_level 2 1, Effect.gpio_set_level 2 1,
         Effect.gpio_set_level 2 1] ∧
    driven 2 (run 32 (run 32 sample_handle [Event.api (Call.transfer 0x00), Event.falling,
      Event.rising 10 1 cb_none, Event.api (Call.transfer 0x00)]).1
      (clock_pairs 10 1 6 ++ [Event.falling])).2 = [0, 0, 0, 0, 0, 0, 0] := by
  decide

/-- C8, amended.  Let `gblink_transfer(v1)` and then `gblink_transfer(v2)` be called
with no byte completion and no other call of `gblink_transfer` in between (events
`es`: edges and setter calls).  If `bit_count > 0` at the first call, or
`bit_count == 0` at the second, then the first value is lost: after the second
call `v2` is in `out_active` with nothing pending, or `v2` is the pending byte, and
the effects of every later sequence of events `ls` are the same whatever value
`w1` the first call had passed instead of `v1`. -/
theorem C8_last_transfer_wins (tw : Nat) (g : gblink) (v1 w1 v2 : Nat) (es ls : List Event)
    (hv2 : v2 < 256)
    (hes : ∀ e ∈ es, e.isTransfer = false)
    (hq : delivered (run tw (gblink_transfer g v1) es).2 = [])
    (hcase : 0 < g.shift ∨ (run tw (gblink_transfer g v1) es).1.shift = 0) :
    (((gblink_transfer (run tw (gblink_transfer g v1) es).1 v2).out = v2 ∧
        (gblink_transfer (run tw (gblink_transfer g v1) es).1 v2).out_buf_valid = false) ∨
      ((gblink_transfer (run tw (gblink_transfer g v1) es).1 v2).out_buf = v2 ∧
        (gblink_transfer (run tw (gblink_transfer g v1) es).1 v2).out_buf_valid = true)) ∧
    (run tw (gblink_transfer (run tw (gblink_transfer g v1) es).1 v2) ls).2 =
      (run tw (gblink_transfer (run tw (gblink_transfer g w1) es).1 v2) ls).2 := by
  refine ⟨transfer_result _ v2 hv2, ?_⟩
  by_cases h0 : g.shift = 0
  · have hrel : eqExceptOut (gblink_transfer g v1) (gblink_transfer g w1) := by
      simp [gblink_transfer, h0, eqExceptOut]
    obtain ⟨r, _⟩ := run_eqExceptOut tw es _ _ hrel
    have hs2 : (run tw (gblink_transfer g v1) es).1.shift = 0 :=
      hcase.resolve_left (by omega)
    rw [transfer_of_eqExceptOut _ _ v2 r hs2]
  · have hrel : eqExceptPending (gblink_transfer g v1) (gblink_transfer g w1) := by
      simp [gblink_transfer, h0, eqExceptPending]
    obtain ⟨_, r⟩ := run_eqExceptPending tw es _ _ hrel hes hq
    exact (run_obsEq tw ls _ _ (transfer_of_eqExceptPending _ _ v2 r)).2.symm

/-- C8 amended, at a concrete input: 6 bits in, `gblink_transfer(0x11)`, a falling
and a rising edge, `gblink_transfer(0x3C)`; what is driven afterwards, through the
completion and 8 more falling edges, is what is driven when the first call passes
`0xEE`. -/
theorem C8_last_transfer_wins_witness :
    (gblink_transfer (run 32 (gblink_transfer mid_byte_handle 0x11)
      [Event.falling, Event.rising 110 1 cb_none]).1 0x3C).out_buf = 0x3C ∧
    (run 32 (gblink_transfer (run 32 (gblink_transfer mid_byte_handle 0x11)
      [Event.falling, Event.rising 110 1 cb_none]).1 0x3C)
      (clock_pairs 110 0 1 ++ clock_pairs 130 1 7 ++ [Event.falling])).2 =
    (run 32 (gblink_transfer (run 32 (gblink_transfer mid_byte_handle 0xEE)
      [Event.falling, Event.rising 110 1 cb_none]).1 0x3C)
      (clock_pairs 110 0 1 ++ clock_pairs 130 1 7 ++ [Event.falling])).2 :=
  have h := C8_last_transfer_wins 32 mid_byte_handle 0x11 0xEE 0x3C
    [Event.falling, Event.rising 110 1 cb_none]
    (clock_pairs 110 0 1 ++ clock_pairs 130 1 7 ++ [Event.falling])
    (by decide) (by decide) (by decide) (by decide)
  ⟨by decide, h.2⟩

/-! ## Eight rising edges make a byte (C9, C10 and support for C1, C2) -/

theorem lor_one_even : ∀ k < 128, 2 * k ||| 1 = 2 * k + 1 := by decide

theorem lor_bit (m b : Nat) (hb : b ≤ 1) : (m * 2 % 256 ||| b) % 256 = (m * 2 + b) % 256 := by
  have he : m * 2 % 256 = 2 * (m % 128) := by omega
  rw [he]
  interval_cases b
  · simp; omega
  · have := lor_one_even (m % 128) (by omega)
    omega

theorem byte_of_lt : ∀ (ls : List Nat), (∀ l ∈ ls, l ≤ 1) → byte_of ls < 2 ^ ls.length := by
  intro ls
  induction ls with
  | nil => intro _; simp [byte_of]
  | cons l ls ih =>
    intro h
    have h1 := h l (List.mem_cons_self _ _)
    have h2 := ih fun x hx => h x (List.mem_cons_of_mem _ hx)
    have h3 : l * 2 ^ ls.length ≤ 1 * 2 ^ ls.length := Nat.mul_le_mul_right _ h1
    simp only [byte_of, List.length_cons, Nat.pow_succ]
    omega

theorem accum_eq : ∀ (ls : List Nat) (x : Nat), x < 256 → (∀ l ∈ ls, l ≤ 1) →
    accum x ls = (x * 2 ^ ls.length + byte_of ls) % 256 := by
  intro ls
  induction ls with
  | nil =>
    intro x hx _
    simp [accum, byte_of, Nat.mod_eq_of_lt hx]
  | cons l ls ih =>
    intro x _ h
    have h1 := h l (List.mem_cons_self _ _)
    have h2 := ih ((x * 2 % 256 ||| l) % 256) (Nat.mod_lt _ (by decide))
      fun y hy => h y (List.mem_cons_of_mem _ hy)
    have e : x * 2 ^ (ls.length + 1) + (l * 2 ^ ls.length + byte_of ls)
        = (x * 2 + l) * 2 ^ ls.length + byte_of ls := by ring
    have m : ((x * 2 + l) % 256 * 2 ^ ls.length + byte_of ls) % 256
        = ((x * 2 + l) * 2 ^ ls.length + byte_of ls) % 256 := by
      apply Nat.ModEq.add_right
      apply Nat.ModEq.mul_right
      exact Nat.mod_modEq _ _
    show accum ((x * 2 % 256 ||| l) % 256) ls = _
    rw [h2, lor_bit x l h1, m]
    simp only [byte_of, List.length_cons, e]

theorem accum_eight (ls : List Nat) (x : Nat) (hlen : ls.length = 8)
    (hl : ∀ l ∈ ls, l ≤ 1) : accum x ls = byte_of ls := by
  cases ls with
  | nil => simp at hlen
  | cons l ls =>
    have h1 := hl l (List.mem_cons_self _ _)
    have h2 : ∀ y ∈ ls, y ≤ 1 := fun y hy => hl y (List.mem_cons_of_mem _ hy)
    have h7 : ls.length = 7 := by simpa using hlen
    have hb := byte_of_lt ls h2
    have hy := accum_eq ls ((x * 2 % 256 ||| l) % 256) (Nat.mod_lt _ (by decide)) h2
    rw [lor_bit x l h1, h7] at hy
    rw [h7] at hb
    show accum ((x * 2 % 256 ||| l) % 256) ls = l * 2 ^ ls.length + byte_of ls
    rw [lor_bit x l h1, hy, h7]
    omega

theorem shift_in_bit_stale (tw : Nat) (g : gblink) (now level : Nat)
    (h : elapsed_us (now % 2 ^ 64) g.time > g.bitclk_timeout_us) :
    (shift_in_bit tw g now level).shift = 1 ∧
    (shift_in_bit tw g now level).in_ = level % 256 := by
  unfold shift_in_bit
  simp only [if_pos h]
  simp

theorem shift_in_bit_fresh (tw : Nat) (g : gblink) (now level : Nat)
    (h : ¬ elapsed_us (now % 2 ^ 64) g.time > g.bitclk_timeout_us) :
    (shift_in_bit tw g now level).shift = (g.shift + 1) % 256 ∧
    (shift_in_bit tw g now level).in_ = (g.in_ * 2 % 256 ||| level) % 256 := by
  unfold shift_in_bit
  simp only [if_neg h]
  simp

theorem shift_in_incomplete (tw : Nat) (cb : Nat → Nat → List Call) (g : gblink)
    (now level : Nat) (h : (shift_in_bit tw g now level).shift ≠ 8) :
    gblink_shift_in tw cb g now level = (shift_in_bit tw g now level, []) := by
  simp [gblink_shift_in, h]

theorem run_rising_short (tw : Nat) : ∀ (es : List Event) (g : gblink),
    (∀ e ∈ es, e.isRising = true) → g.shift + es.length < 8 → (run tw g es).2 = [] := by
  intro es
  induction es with
  | nil => intro g _ _; rfl
  | cons e es ih =>
    intro g hr hlen
    have hes : ∀ e ∈ es, e.isRising = true := fun x hx => hr x (List.mem_cons_of_mem _ hx)
    have he := hr e (List.mem_cons_self _ _)
    simp only [List.length_cons] at hlen
    cases e with
    | falling => simp [Event.isRising] at he
    | api c => simp [Event.isRising] at he
    | rising now level cb =>
      have hsh : (shift_in_bit tw g now level).shift + es.length < 8 := by
        by_cases hst : elapsed_us (now % 2 ^ 64) g.time > g.bitclk_timeout_us
        · rw [(shift_in_bit_stale tw g now level hst).1]; omega
        · rw [(shift_in_bit_fresh tw g now level hst).1]; omega
      simp only [run, step_rising, step_falling, step_api]
      rw [shift_in_incomplete tw cb g now level (by omega)]
      simp [ih _ hes hsh]

theorem run_rising_completes (tw : Nat) : ∀ (es : List Event) (g : gblink),
    (∀ e ∈ es, e.isRising = true) → 1 ≤ g.shift → g.shift + es.length = 8 →
    delivered (run tw g es).2 ≠ [] →
    (run tw g es).2 = [Effect.callback g.callback g.cb_context (accum g.in_ (samples es))] ∧
    (run tw g es).1.shift = 0 := by
  intro es
  induction es with
  | nil => intro g _ _ _ hd; simp [run, delivered] at hd
  | cons e es ih =>
    intro g hr h1 hlen hd
    have hes : ∀ e ∈ es, e.isRising = true := fun x hx => hr x (List.mem_cons_of_mem _ hx)
    have he := hr e (List.mem_cons_self _ _)
    simp only [List.length_cons] at hlen
    cases e with
    | falling => simp [Event.isRising] at he
    | api c => simp [Event.isRising] at he
    | rising now level cb =>
      have hw := shift_in_bit_wiring tw g now level
      simp only [wiring, Prod.mk.injEq] at hw
      by_cases hst : elapsed_us (now % 2 ^ 64) g.time > g.bitclk_timeout_us
      · exfalso
        obtain ⟨s1, _⟩ := shift_in_bit_stale tw g now level hst
        apply hd
        have hsh : (shift_in_bit tw g now level).shift + es.length < 8 := by omega
        have hz := run_rising_short tw es (shift_in_bit tw g now level) hes hsh
        simp only [run, step_rising, step_falling, step_api]
        rw [shift_in_incomplete tw cb g now level (by omega)]
        simp [hz, delivered]
      · obtain ⟨s1, s2⟩ := shift_in_bit_fresh tw g now level hst
        have hlt : g.shift + 1 < 256 := by omega
        rw [Nat.mod_eq_of_lt hlt] at s1
        by_cases h8 : g.shift + 1 = 8
        · have hnil : es = [] := List.eq_nil_of_length_eq_zero (by omega)
          subst hnil
          have hp := promote_frame (shift_in_bit tw g now level)
          simp only [run, step_rising, step_falling, step_api, gblink_shift_in, s1, h8, if_true, List.append_nil, samples,
            accum, hp, hw, s2, true_and]
          exact applyCalls_shift_zero _ _ hp.2.2.2.2.2.2
        · have hstep := shift_in_incomplete tw cb g now level (by omega)
          simp only [run, step_rising, step_falling, step_api, hstep, List.nil_append] at hd ⊢
          obtain ⟨i1, i2⟩ := ih (shift_in_bit tw g now level) hes (by omega) (by omega) hd
          rw [i1, hw.2.2.2.1, hw.2.2.2.2, s2]
          exact ⟨rfl, i2⟩

theorem samples_le_cons (l : Nat) (ls : List Nat) (h : ∀ x ∈ l :: ls, x ≤ 1) :
    l ≤ 1 ∧ ∀ x ∈ ls, x ≤ 1 :=
  ⟨h l (List.mem_cons_self _ _), fun x hx => h x (List.mem_cons_of_mem _ hx)⟩

theorem samples_length_rising : ∀ (es : List Event), (∀ e ∈ es, e.isRising = true) →
    (samples es).length = es.length := by
  intro es
  induction es with
  | nil => intro _; rfl
  | cons x xs ih =>
    intro hes
    have hx := hes x (List.mem_cons_self _ _)
    cases x with
    | falling => simp [Event.isRising] at hx
    | api c => simp [Event.isRising] at hx
    | rising n l c => simp [samples, ih fun y hy => hes y (List.mem_cons_of_mem _ hy)]

/-- From a byte boundary, eight rising edges whatever their timer values: when they
deliver a byte at all, the first seven deliver nothing, the eighth invokes the
callback once with the stored context and the byte of the eight sampled levels,
first level as most significant bit, and `shift` is 0 afterwards. -/
theorem eight_rising_from_boundary (tw : Nat) (g : gblink) (es : List Event)
    (hs : g.shift = 0) (hr : ∀ e ∈ es, e.isRising = true) (hlen : es.length = 8)
    (hl : ∀ l ∈ samples es, l ≤ 1) (hd : delivered (run tw g es).2 ≠ []) :
    (run tw g (es.take 7)).2 = [] ∧
    (run tw g es).2 = [Effect.callback g.callback g.cb_context (byte_of (samples es))] ∧
    (run tw g es).1.shift = 0 := by
  have hr7 : ∀ e ∈ es.take 7, e.isRising = true := fun x hx => hr x (List.mem_of_mem_take hx)
  have hlen7 : (es.take 7).length = 7 := by simp [hlen]
  refine ⟨run_rising_short tw _ g hr7 (by omega), ?_⟩
  cases es with
  | nil => simp at hlen
  | cons e es =>
    have hes : ∀ e ∈ es, e.isRising = true := fun x hx => hr x (List.mem_cons_of_mem _ hx)
    have he := hr e (List.mem_cons_self _ _)
    simp only [List.length_cons] at hlen
    cases e with
    | falling => simp [Event.isRising] at he
    | api c => simp [Event.isRising] at he
    | rising now level cb =>
      simp only [samples] at hl ⊢
      obtain ⟨hl1, hl2⟩ := samples_le_cons _ _ hl
      have hw := shift_in_bit_wiring tw g now level
      simp only [wiring, Prod.mk.injEq] at hw
      have hlen8 : (level :: samples es).length = 8 := by
        simp [samples_length_rising es hes]; omega
      have hsh : (shift_in_bit tw g now level).shift = 1 ∧
          accum (shift_in_bit tw g now level).in_ (samples es)
            = byte_of (level :: samples es) := by
        by_cases hst : elapsed_us (now % 2 ^ 64) g.time > g.bitclk_timeout_us
        · obtain ⟨s1, s2⟩ := shift_in_bit_stale tw g now level hst
          refine ⟨s1, ?_⟩
          rw [s2, ← accum_eight (level :: samples es) 0 hlen8 hl]
          simp [accum]
        · obtain ⟨s1, s2⟩ := shift_in_bit_fresh tw g now level hst
          refine ⟨by rw [s1, hs], ?_⟩
          rw [s2, ← accum_eight (level :: samples es) g.in_ hlen8 hl]
          rfl
      have hstep := shift_in_incomplete tw cb g now level (by omega)
      simp only [run, step_rising, step_falling, step_api, hstep, List.nil_append] at hd ⊢
      obtain ⟨i1, i2⟩ := run_rising_completes tw es (shift_in_bit tw g now level) hes
        (by omega) (by omega) hd
      rw [i1, hsh.2, hw.2.2.2.1, hw.2.2.2.2]
      exact ⟨rfl, i2⟩

/-- C9.  `gblink_clk_source_set`, in every state and so in the middle of a byte
(`bit_count` from 1 to 7), sets `bit_count` to 0, and the partial inbound byte is
discarded: of the 8 rising edges that follow, the
first 7 deliver nothing, and the byte that the completion reached through them
delivers is the byte of the 8 levels sampled after the call, first sample as most
significant bit, whatever bits had been shifted in before the call. -/
theorem C9_clk_source_set_discards_partial_byte (tw : Nat) (g : gblink) (source : Nat)
    (es : List Event)
    (hr : ∀ e ∈ es, e.isRising = true) (hlen : es.length = 8)
    (hl : ∀ l ∈ samples es, l ≤ 1)
    (hd : delivered (run tw (gblink_clk_source_set g source) es).2 ≠ []) :
    (gblink_clk_source_set g source).shift = 0 ∧
    (run tw (gblink_clk_source_set g source) (es.take 7)).2 = [] ∧
    (run tw (gblink_clk_source_set g source) es).2
      = [Effect.callback g.callback g.cb_context (byte_of (samples es))] :=
  have h := eight_rising_from_boundary tw (gblink_clk_source_set g source) es rfl hr hlen hl hd
  ⟨rfl, h.1, h.2.1⟩

/-- C9 at a concrete input: 6 bits in (`in_accum = 0x2A`), `gblink_clk_source_set`,
then the levels 1,1,0,0,0,0,1,1 sampled 10 us apart deliver `0xC3`. -/
theorem C9_clk_source_set_discards_partial_byte_witness :
    (gblink_clk_source_set mid_byte_handle 1).shift = 0 ∧
    (run 32 (gblink_clk_source_set mid_byte_handle 1)
      (edges_10us 110 [1, 1, 0, 0, 0, 0, 1, 1])).2 = [Effect.callback 7 9 0xC3] :=
  have h := C9_clk_source_set_discards_partial_byte 32 mid_byte_handle 1
    (edges_10us 110 [1, 1, 0, 0, 0, 0, 1, 1])
    (by decide) (by decide) (by decide) (by decide)
  ⟨h.1, h.2.2⟩

theorem in_time_rising (tw timeout : Nat) : ∀ (es : List Event) (prev : Nat),
    in_time tw timeout prev es = true → ∀ e ∈ es, e.isRising = true := by
  intro es
  induction es with
  | nil => intro _ _ e he; simp at he
  | cons x xs ih =>
    intro prev h e he
    cases x with
    | falling => simp [in_time] at h
    | api c => simp [in_time] at h
    | rising n l c =>
      simp only [in_time, Bool.and_eq_true] at h
      rcases List.mem_cons.mp he with rfl | hm
      · rfl
      · exact ih n h.2 e hm

theorem elapsed_us_eq (now prev : Nat) (h1 : prev ≤ now) (h2 : now < 2 ^ 64) :
    elapsed_us (now % 2 ^ 64) prev = now - prev := by
  unfold elapsed_us
  omega

theorem shift_in_bit_time (tw : Nat) (g : gblink) (now level : Nat) :
    (shift_in_bit tw g now level).time = now % 2 ^ 64 % 2 ^ tw := by
  simp [shift_in_bit]

theorem in_time_delivers (tw : Nat) (h64 : tw ≤ 64) : ∀ (es : List Event) (g : gblink),
    1 ≤ g.shift → g.shift ≤ 7 → g.shift + es.length = 8 →
    in_time tw g.bitclk_timeout_us g.time es = true →
    delivered (run tw g es).2 ≠ [] := by
  intro es
  induction es with
  | nil => intro g _ h7 hlen _; simp at hlen; omega
  | cons e es ih =>
    intro g h1 h7 hlen ht
    simp only [List.length_cons] at hlen
    cases e with
    | falling => simp [in_time] at ht
    | api c => simp [in_time] at ht
    | rising now level cb =>
      simp only [in_time, Bool.and_eq_true, decide_eq_true_eq] at ht
      obtain ⟨⟨⟨t1, t2⟩, t3⟩, t4⟩ := ht
      have hlt : now < 2 ^ 64 := lt_of_lt_of_le t3 (Nat.pow_le_pow_right (by decide) h64)
      have hst : ¬ elapsed_us (now % 2 ^ 64) g.time > g.bitclk_timeout_us := by
        rw [elapsed_us_eq now g.time t1 hlt]; omega
      obtain ⟨s1, _⟩ := shift_in_bit_fresh tw g now level hst
      have hlt2 : g.shift + 1 < 256 := by omega
      rw [Nat.mod_eq_of_lt hlt2] at s1
      have stime : (shift_in_bit tw g now level).time = now := by
        rw [shift_in_bit_time, Nat.mod_eq_of_lt hlt, Nat.mod_eq_of_lt t3]
      have sto := (shift_in_bit_frame tw g now level).2.2.2.2.2.2.2
      by_cases h8 : g.shift + 1 = 8
      · simp [run, step_rising, step_falling, step_api, gblink_shift_in, s1, h8, delivered]
      · have hstep := shift_in_incomplete tw cb g now level (by omega)
        simp only [run, step_rising, step_falling, step_api, hstep, List.nil_append]
        apply ih (shift_in_bit tw g now level) (by omega) (by omega) (by omega)
        rw [sto, stime]
        exact t4

/-- Supporting C1 and C2: from a byte boundary, eight rising edges whose timer
values fit `TickType_t`, each edge after the first no earlier than the previous
one and at most `timeout_us` after it, sampling levels 0 or 1: the callback is
invoked exactly once, on the eighth edge, with the byte of the eight levels, first
level as most significant bit, and `shift` is 0 afterwards. -/
theorem eight_rising_in_time (tw : Nat) (h64 : tw ≤ 64) (g : gblink) (now level : Nat)
    (cb : Nat → Nat → List Call) (es : List Event)
    (hs : g.shift = 0) (hlen : es.length = 7) (hfit : now < 2 ^ tw)
    (hl : ∀ l ∈ level :: samples es, l ≤ 1)
    (ht : in_time tw g.bitclk_timeout_us now es = true) :
    (run tw g ((Event.rising now level cb :: es).take 7)).2 = [] ∧
    (run tw g (Event.rising now level cb :: es)).2
      = [Effect.callback g.callback g.cb_context (byte_of (level :: samples es))] ∧
    (run tw g (Event.rising now level cb :: es)).1.shift = 0 := by
  have hr := in_time_rising tw _ es now ht
  have hlt : now < 2 ^ 64 := lt_of_lt_of_le hfit (Nat.pow_le_pow_right (by decide) h64)
  have hsh : (shift_in_bit tw g now level).shift = 1 := by
    by_cases hst : elapsed_us (now % 2 ^ 64) g.time > g.bitclk_timeout_us
    · exact (shift_in_bit_stale tw g now level hst).1
    · rw [(shift_in_bit_fresh tw g now level hst).1, hs]
  have stime : (shift_in_bit tw g now level).time = now := by
    rw [shift_in_bit_time, Nat.mod_eq_of_lt hlt, Nat.mod_eq_of_lt hfit]
  have sto := (shift_in_bit_frame tw g now level).2.2.2.2.2.2.2
  have hd : delivered (run tw g (Event.rising now level cb :: es)).2 ≠ [] := by
    have hstep := shift_in_incomplete tw cb g now level (by omega)
    simp only [run, step_rising, step_falling, step_api, hstep, List.nil_append]
    apply in_time_delivers tw h64 es (shift_in_bit tw g now level) (by omega) (by omega)
      (by omega)
    rw [sto, stime]
    exact ht
  apply eight_rising_from_boundary tw g (Event.rising now level cb :: es) hs
  · intro e he
    rcases List.mem_cons.mp he with rfl | hm
    · rfl
    · exact hr e hm
  · simp [hlen]
  · exact hl
  · exact hd

/-- Supporting C2: a rising edge on which the timeout fires restarts the
accumulation, whatever was shifted in before: it invokes no callback and leaves
`shift = 1` and `in` equal to the level just sampled. -/
theorem stale_edge_restarts (tw : Nat) (cb : Nat → Nat → List Call) (g : gblink)
    (now level : Nat) (hl : level ≤ 1)
    (h : elapsed_us (now % 2 ^ 64) g.time > g.bitclk_timeout_us) :
    (gblink_shift_in tw cb g now level).2 = [] ∧
    (gblink_shift_in tw cb g now level).1.shift = 1 ∧
    (gblink_shift_in tw cb g now level).1.in_ = level := by
  obtain ⟨s1, s2⟩ := shift_in_bit_stale tw g now level h
  have hlt : level < 256 := by omega
  rw [shift_in_incomplete tw cb g now level (by omega)]
  exact ⟨rfl, s1, by rw [s2, Nat.mod_eq_of_lt hlt]⟩

/-- Supporting C10: an event that is not a rising edge (a falling edge, a call of
`gblink_transfer` or of a setter) invokes no callback. -/
theorem only_rising_edges_deliver (tw : Nat) (g : gblink) (e : Event)
    (h : e.isRising = false) : delivered (step tw g e).2 = [] := by
  cases e with
  | rising now level cb => simp [Event.isRising] at h
  | falling => simp [step_rising, step_falling, step_api, gblink_shift_out, delivered]
  | api c => simp [step_rising, step_falling, step_api, delivered]

/-- Supporting C10: a rising edge invokes the callback at most once, and when it
does, with the stored callback, the stored context and the accumulated byte. -/
theorem rising_edge_effects (tw : Nat) (cb : Nat → Nat → List Call) (g : gblink)
    (now level : Nat) :
    (gblink_shift_in tw cb g now level).2 = [] ∨
    (gblink_shift_in tw cb g now level).2
      = [Effect.callback g.callback g.cb_context (shift_in_bit tw g now level).in_] := by
  by_cases hd : delivered (gblink_shift_in tw cb g now level).2 = []
  · left; rw [shift_in_quiet tw cb g now level hd]
  · right; rw [(shift_in_completes tw cb g now level hd).2]

/-- C10, the code at the failing input.  With the 32-bit `TickType_t` of the ESP32,
`n = 16` rising edges 10 us apart from timer value `2 ^ 32` on, from `bit_count = 0`
with `timeout_us = 200`, invoke the callback no time, where the claim has
`floor(16 / 8) = 2` invocations; the same edges from timer value `1000` on deliver
`0xAA` and `0x55` with the stored callback context. -/
theorem C10_no_callback_past_tick_range :
    (run TickType_t_bits_esp32 sample_handle
      (edges_10us 4294967296 [1, 0, 1, 0, 1, 0, 1, 0, 0, 1, 0, 1, 0, 1, 0, 1])).2 = [] ∧
    (run TickType_t_bits_esp32 sample_handle
      (edges_10us 1000 [1, 0, 1, 0, 1, 0, 1, 0, 0, 1, 0, 1, 0, 1, 0, 1])).2
      = [Effect.callback 7 9 0xAA, Effect.callback 7 9 0x55] := by
  decide

/-! ## The bit counter and the staleness check (C11, C12) -/

theorem applyCall_shift_le (g : gblink) (c : Call) : (applyCall g c).shift ≤ g.shift := by
  cases c <;> simp [applyCall, gblink_clk_source_set, gblink_speed_set, gblink_timeout_set,
    gblink_transfer, gblink_nobyte_set]
  split <;> simp

theorem applyCalls_shift_le : ∀ (cs : List Call) (g : gblink),
    (applyCalls g cs).shift ≤ g.shift := by
  intro cs
  induction cs with
  | nil => intro g; exact Nat.le_refl _
  | cons c cs ih => intro g; exact Nat.le_trans (ih (applyCall g c)) (applyCall_shift_le g c)

theorem shift_in_bit_shift_le (tw : Nat) (g : gblink) (now level : Nat) (h : g.shift ≤ 7) :
    (shift_in_bit tw g now level).shift ≤ 8 := by
  by_cases hst : elapsed_us (now % 2 ^ 64) g.time > g.bitclk_timeout_us
  · rw [(shift_in_bit_stale tw g now level hst).1]; omega
  · rw [(shift_in_bit_fresh tw g now level hst).1]; omega

/-- C11.  `bit_count <= 7` is an invariant: when it holds before the interrupt
handler runs (clock sampled high or low, any timer value, level and callback), it
holds when the handler returns, and when a byte completes it holds in the state
in which the callback is entered and after every call the callback makes; it is
kept by `gblink_transfer` and by each of the four setters. -/
theorem C11_bit_count_at_most_7 (tw : Nat) (g : gblink) (h : g.shift ≤ 7) :
    (∀ (cb : Nat → Nat → List Call) (clk_level now level : Nat),
      (gblink_clk_isr tw cb g clk_level now level).1.shift ≤ 7) ∧
    (∀ (now level : Nat), (shift_in_bit tw g now level).shift = 8 →
      (promote (shift_in_bit tw g now level)).shift ≤ 7 ∧
      ∀ (cs : List Call), (applyCalls (promote (shift_in_bit tw g now level)) cs).shift ≤ 7) ∧
    (∀ (v : Nat), (gblink_transfer g v).shift ≤ 7) ∧
    (∀ (source : Nat), (gblink_clk_source_set g source).shift ≤ 7) ∧
    (∀ (speed : Nat), (gblink_speed_set g speed).shift ≤ 7) ∧
    (∀ (us : Nat), (gblink_timeout_set g us).shift ≤ 7) ∧
    (∀ (v : Nat), (gblink_nobyte_set g v).shift ≤ 7) := by
  have hp : ∀ (now level : Nat) (cs : List Call),
      (applyCalls (promote (shift_in_bit tw g now level)) cs).shift ≤ 7 := by
    intro now level cs
    have h0 := (promote_frame (shift_in_bit tw g now level)).2.2.2.2.2.2
    have := applyCalls_shift_le cs (promote (shift_in_bit tw g now level))
    omega
  refine ⟨?_, ?_, ?_, ?_, ?_, ?_, ?_⟩
  · intro cb clk_level now level
    unfold gblink_clk_isr
    split
    · unfold gblink_shift_in
      have h8 := shift_in_bit_shift_le tw g now level h
      by_cases hc : (shift_in_bit tw g now level).shift = 8
      · simp only [hc, if_true]
        exact hp now level _
      · simp only [hc, if_false]
        omega
    · simpa [gblink_shift_out] using h
  · intro now level _
    exact ⟨hp now level [], hp now level⟩
  · intro v
    have := applyCall_shift_le g (Call.transfer v)
    simp only [applyCall] at this
    omega
  · intro source; simp [gblink_clk_source_set]
  · intro speed; simpa [gblink_speed_set] using h
  · intro us; simpa [gblink_timeout_set] using h
  · intro v; simpa [gblink_nobyte_set] using h

/-- C11 at a concrete input: 7 bits in, the rising edge that completes the byte
with a callback that calls `gblink_transfer`, and a call of `gblink_transfer`. -/
theorem C11_bit_count_at_most_7_witness :
    (gblink_clk_isr 32 (cb_transfer 0x3C) { mid_byte_handle with shift := 7 } 1 110 1).1.shift
      ≤ 7 ∧
    (promote (shift_in_bit 32 { mid_byte_handle with shift := 7 } 110 1)).shift ≤ 7 ∧
    (gblink_transfer { mid_byte_handle with shift := 7 } 0x3C).shift ≤ 7 :=
  have h := C11_bit_count_at_most_7 32 { mid_byte_handle with shift := 7 } (by decide)
  ⟨h.1 (cb_transfer 0x3C) 1 110 1, (h.2.1 110 1 (by decide)).1, h.2.2.1 0x3C⟩

theorem lor_mod_256 (a l : Nat) : (a % 256 ||| l) % 256 = (a ||| l) % 256 := by
  apply Nat.eq_of_testBit_eq
  intro i
  have h : (256 : Nat) = 2 ^ 8 := by decide
  rw [h]
  simp only [Nat.testBit_mod_two_pow, Nat.testBit_or]
  cases decide (i < 8) <;> simp

theorem shift_in_complete_eq (tw : Nat) (cb : Nat → Nat → List Call) (g : gblink)
    (now level : Nat) (h : (shift_in_bit tw g now level).shift = 8) :
    gblink_shift_in tw cb g now level =
      (applyCalls (promote (shift_in_bit tw g now level))
          (cb g.cb_context (shift_in_bit tw g now level).in_),
        [Effect.callback g.callback g.cb_context (shift_in_bit tw g now level).in_]) := by
  apply (shift_in_completes tw cb g now level ?_).2
  simp [gblink_shift_in, h, delivered]

/-- C12.  On a rising edge at timer value `now`, no earlier than the stored
`last_edge_time` (field `time`), with `bit_count <= 7`: when `now - last_edge_time`
is strictly greater than `timeout_us`, the accumulator and the counter are reset
before the bit is shifted in, so the edge yields `in_accum` = the sample alone and
`bit_count = 1` and no callback; when it is not (a gap equal to `timeout_us`
included), the partial byte is kept: `in_accum = (old in_accum << 1 | sample) mod
256`, and `bit_count = old bit_count + 1` with no callback, or, when that sum is 8,
`bit_count = 0` with one callback that receives the new `in_accum`. -/
theorem C12_reset_iff_gap_exceeds_timeout (tw : Nat) (cb : Nat → Nat → List Call)
    (g : gblink) (now level : Nat)
    (hnow : now < 2 ^ 64) (hmono : g.time ≤ now) (hs : g.shift ≤ 7) :
    (now - g.time > g.bitclk_timeout_us →
      (gblink_shift_in tw cb g now level).1.in_ = ((0 * 2) ||| level) % 256 ∧
      (gblink_shift_in tw cb g now level).1.shift = 0 + 1 ∧
      (gblink_shift_in tw cb g now level).2 = []) ∧
    (now - g.time ≤ g.bitclk_timeout_us →
      (gblink_shift_in tw cb g now level).1.in_ = ((g.in_ * 2) ||| level) % 256 ∧
      (g.shift + 1 ≠ 8 →
        (gblink_shift_in tw cb g now level).1.shift = g.shift + 1 ∧
        (gblink_shift_in tw cb g now level).2 = []) ∧
      (g.shift + 1 = 8 →
        (gblink_shift_in tw cb g now level).1.shift = 0 ∧
        (gblink_shift_in tw cb g now level).2
          = [Effect.callback g.callback g.cb_context (((g.in_ * 2) ||| level) % 256)])) := by
  have he := elapsed_us_eq now g.time hmono hnow
  constructor
  · intro hgt
    have hst : elapsed_us (now % 2 ^ 64) g.time > g.bitclk_timeout_us := by rw [he]; exact hgt
    obtain ⟨s1, s2⟩ := shift_in_bit_stale tw g now level hst
    rw [shift_in_incomplete tw cb g now level (by omega)]
    exact ⟨by simpa using s2, by simpa using s1, rfl⟩
  · intro hle
    have hst : ¬ elapsed_us (now % 2 ^ 64) g.time > g.bitclk_timeout_us := by rw [he]; omega
    obtain ⟨s1, s2⟩ := shift_in_bit_fresh tw g now level hst
    have hlt : g.shift + 1 < 256 := by omega
    rw [Nat.mod_eq_of_lt hlt] at s1
    rw [lor_mod_256] at s2
    by_cases h8 : g.shift + 1 = 8
    · have hc : (shift_in_bit tw g now level).shift = 8 := by rw [s1]; exact h8
      have hp := promote_frame (shift_in_bit tw g now level)
      rw [shift_in_complete_eq tw cb g now level hc]
      refine ⟨?_, fun hne => absurd h8 hne, fun _ => ⟨?_, by rw [s2]⟩⟩
      · rw [(applyCalls_frame _ _).2.2.2.1, hp.2.1, s2]
      · exact applyCalls_shift_zero _ _ hp.2.2.2.2.2.2
    · have hc : (shift_in_bit tw g now level).shift ≠ 8 := by rw [s1]; exact h8
      rw [shift_in_incomplete tw cb g now level hc]
      exact ⟨s2, fun _ => ⟨s1, rfl⟩, fun h => absurd h h8⟩

/-- C12 at a concrete input: 6 bits in (`in_accum = 0x2A`), last edge at 100,
timeout 200: an edge at 300 (gap equal to the timeout) sampling 1 keeps the partial
byte, an edge at 301 sampling 1 restarts. -/
theorem C12_reset_iff_gap_exceeds_timeout_witness :
    (gblink_shift_in 32 cb_none mid_byte_handle 300 1).1.in_ = 0x55 ∧
    (gblink_shift_in 32 cb_none mid_byte_handle 300 1).1.shift = 7 ∧
    (gblink_shift_in 32 cb_none mid_byte_handle 301 1).1.in_ = 1 ∧
    (gblink_shift_in 32 cb_none mid_byte_handle 301 1).1.shift = 1 :=
  have h := C12_reset_iff_gap_exceeds_timeout 32 cb_none mid_byte_handle 300 1
    (by decide) (by decide) (by decide)
  have k := C12_reset_iff_gap_exceeds_timeout 32 cb_none mid_byte_handle 301 1
    (by decide) (by decide) (by decide)
  ⟨(h.2 (by decide)).1, ((h.2 (by decide)).2.1 (by decide)).1, (k.1 (by decide)).1,
    (k.1 (by decide)).2.1⟩

/-! ## Allocation and the configuration fields (C13, C14, C18, C19) -/

/-- C13.  The handle that `gblink_alloc` returns has `timeout_us == 200` and the
clock role, callback and callback context of the definition passed in, whatever
the allocated block held; a later `gblink_timeout_set(us)`, `us` a `uint32_t`,
replaces `timeout_us` with `us` and changes no other field. -/
theorem C13_alloc_sets_timeout_and_definition (tw spd : Nat) (mem : gblink) (d : gblink_def)
    (now us : Nat) (hus : us < 2 ^ 32) :
    (gblink_alloc tw spd mem d now).bitclk_timeout_us = 200 ∧
    (gblink_alloc tw spd mem d now).source = d.source ∧
    (gblink_alloc tw spd mem d now).callback = d.callback ∧
    (gblink_alloc tw spd mem d now).cb_context = d.cb_context ∧
    gblink_timeout_set (gblink_alloc tw spd mem d now) us
      = { gblink_alloc tw spd mem d now with bitclk_timeout_us := us } := by
  refine ⟨rfl, rfl, rfl, rfl, ?_⟩
  simp only [gblink_timeout_set, Nat.mod_eq_of_lt hus]

/-- C13 at a concrete input: a block with nonzero bytes, the sample definition,
then `gblink_timeout_set(500)`. -/
theorem C13_alloc_sets_timeout_and_definition_witness :
    (gblink_alloc 32 4096 dirty_block sample_def 1000).bitclk_timeout_us = 200 ∧
    (gblink_alloc 32 4096 dirty_block sample_def 1000).source = 1 ∧
    (gblink_alloc 32 4096 dirty_block sample_def 1000).callback = 7 ∧
    (gblink_alloc 32 4096 dirty_block sample_def 1000).cb_context = 9 ∧
    gblink_timeout_set (gblink_alloc 32 4096 dirty_block sample_def 1000) 500
      = { gblink_alloc 32 4096 dirty_block sample_def 1000 with bitclk_timeout_us := 500 } :=
  C13_alloc_sets_timeout_and_definition 32 4096 dirty_block sample_def 1000 500 (by decide)

theorem applyCall_config (a b : gblink) (c : Call) (h : config a = config b) :
    config (applyCall a c) = config (applyCall b c) := by
  simp only [config, Prod.mk.injEq] at h
  obtain ⟨h1, h2, h3, h4, h5, h6⟩ := h
  cases c <;> simp [applyCall, gblink_clk_source_set, gblink_speed_set, gblink_timeout_set,
    gblink_transfer, gblink_nobyte_set, config, h1, h2, h3, h4, h5, h6]
  split <;> split <;> simp [h1, h2, h3, h4, h5, h6]

theorem applyCalls_config : ∀ (cs : List Call) (a b : gblink), config a = config b →
    config (applyCalls a cs) = config (applyCalls b cs) := by
  intro cs
  induction cs with
  | nil => intro a b h; exact h
  | cons c cs ih => intro a b h; exact ih _ _ (applyCall_config a b c h)

theorem applyCalls_transfers_config : ∀ (cs : List Call) (g : gblink),
    (∀ c ∈ cs, c.isTransfer = true) → config (applyCalls g cs) = config g := by
  intro cs
  induction cs with
  | nil => intro g _; rfl
  | cons c cs ih =>
    intro g h
    have hc := h c (List.mem_cons_self _ _)
    have hcs := ih (applyCall g c) fun x hx => h x (List.mem_cons_of_mem _ hx)
    simp only [applyCalls, hcs]
    cases c <;> first
      | (simp [Call.isTransfer] at hc; done)
      | (simp only [applyCall, gblink_transfer, config]; split <;> rfl)

theorem shift_in_bit_config (tw : Nat) (g : gblink) (now level : Nat) :
    config (shift_in_bit tw g now level) = config g ∧
    config (promote (shift_in_bit tw g now level)) = config g := by
  have h1 : config (shift_in_bit tw g now level) = config g := by
    simp only [shift_in_bit, config]
    split <;> rfl
  refine ⟨h1, ?_⟩
  rw [← h1]
  simp only [promote, config]
  split <;> rfl

/-- C14.  The configuration fields (clock source, speed, `timeout_us`, idle byte,
callback, callback context) are written only by the setters.  The rising-edge
handler leaves them as they are up to the entry of the callback and when no byte
completes; when a byte completes, they are what the calls made by the callback make
of them, so unchanged when the callback only calls `gblink_transfer`.  The
falling-edge handler and `gblink_transfer` leave them unchanged, and
`gblink_speed_set`, `gblink_timeout_set` (a `uint32_t`) and `gblink_nobyte_set` (a
`uint8_t`) each change their own field and no other field of the handle. -/
theorem C14_config_written_only_by_setters (tw : Nat) (g : gblink) :
    (∀ (now level : Nat), config (shift_in_bit tw g now level) = config g ∧
      config (promote (shift_in_bit tw g now level)) = config g) ∧
    (∀ (cb : Nat → Nat → List Call) (now level : Nat),
      (shift_in_bit tw g now level).shift ≠ 8 →
      config (gblink_shift_in tw cb g now level).1 = config g) ∧
    (∀ (cb : Nat → Nat → List Call) (now level : Nat),
      (shift_in_bit tw g now level).shift = 8 →
      config (gblink_shift_in tw cb g now level).1
        = config (applyCalls g (cb g.cb_context (shift_in_bit tw g now level).in_))) ∧
    (∀ (cb : Nat → Nat → List Call) (now level : Nat),
      (∀ c ∈ cb g.cb_context (shift_in_bit tw g now level).in_, c.isTransfer = true) →
      config (gblink_shift_in tw cb g now level).1 = config g) ∧
    config (gblink_shift_out g).1 = config g ∧
    (∀ (v : Nat), config (gblink_transfer g v) = config g) ∧
    (∀ (speed : Nat), gblink_speed_set g speed = { g with speed := speed }) ∧
    (∀ (us : Nat), us < 2 ^ 32 →
      gblink_timeout_set g us = { g with bitclk_timeout_us := us }) ∧
    (∀ (v : Nat), v < 256 → gblink_nobyte_set g v = { g with nobyte := v }) := by
  have hcfg := shift_in_bit_config tw g
  have hA : ∀ (cb : Nat → Nat → List Call) (now level : Nat),
      (shift_in_bit tw g now level).shift ≠ 8 →
      config (gblink_shift_in tw cb g now level).1 = config g := by
    intro cb now level hne
    rw [shift_in_incomplete tw cb g now level hne]
    exact (hcfg now level).1
  have hB : ∀ (cb : Nat → Nat → List Call) (now level : Nat),
      (shift_in_bit tw g now level).shift = 8 →
      config (gblink_shift_in tw cb g now level).1
        = config (applyCalls g (cb g.cb_context (shift_in_bit tw g now level).in_)) := by
    intro cb now level h8
    rw [shift_in_complete_eq tw cb g now level h8]
    exact applyCalls_config _ _ _ (hcfg now level).2
  refine ⟨hcfg, hA, hB, ?_, rfl, ?_, fun _ => rfl, ?_, ?_⟩
  · intro cb now level hcb
    by_cases h8 : (shift_in_bit tw g now level).shift = 8
    · rw [hB cb now level h8]
      exact applyCalls_transfers_config _ g hcb
    · exact hA cb now level h8
  · intro v
    simp only [gblink_transfer, config]
    split <;> rfl
  · intro us hus
    simp only [gblink_timeout_set, Nat.mod_eq_of_lt hus]
  · intro v hv
    simp only [gblink_nobyte_set, Nat.mod_eq_of_lt hv]

/-- C14 at a concrete input: 7 bits in, the completing rising edge with a callback
that calls `gblink_transfer(0x3C)`, and `gblink_timeout_set(500)`. -/
theorem C14_config_written_only_by_setters_witness :
    config (gblink_shift_in 32 (cb_transfer 0x3C) { mid_byte_handle with shift := 7 }
      110 1).1 = config { mid_byte_handle with shift := 7 } ∧
    gblink_timeout_set { mid_byte_handle with shift := 7 } 500
      = { { mid_byte_handle with shift := 7 } with bitclk_timeout_us := 500 } :=
  have h := C14_config_written_only_by_setters 32 { mid_byte_handle with shift := 7 }
  ⟨h.2.2.2.1 (cb_transfer 0x3C) 110 1 (by simp [cb_transfer, Call.isTransfer]),
    h.2.2.2.2.2.2.2.1 500 (by decide)⟩

/-- Supporting C18: `gblink_alloc` leaves in the fields it does not assign what the
allocated block held. -/
theorem alloc_keeps_block_content (tw spd : Nat) (mem : gblink) (d : gblink_def) (now : Nat) :
    (gblink_alloc tw spd mem d now).shift = mem.shift ∧
    (gblink_alloc tw spd mem d now).in_ = mem.in_ ∧
    (gblink_alloc tw spd mem d now).out = mem.out ∧
    (gblink_alloc tw spd mem d now).out_buf = mem.out_buf ∧
    (gblink_alloc tw spd mem d now).out_buf_valid = mem.out_buf_valid ∧
    (gblink_alloc tw spd mem d now).nobyte = mem.nobyte :=
  ⟨rfl, rfl, rfl, rfl, rfl, rfl⟩

/-- C18, the code at the failing input.  `gblink_alloc` on a block that `malloc`
returns with nonzero bytes: the handle has `shift = 200`, `in = 0x5A`, `out = 0xC3`,
`out_buf_valid` set and `nobyte = 0x11`, none of them zero; the bit counter is
above 7, and the first eight rising edges, 10 us apart, complete no byte. -/
theorem C18_alloc_does_not_zero :
    (gblink_alloc TickType_t_bits_esp32 4096 dirty_block sample_def 1000).shift = 200 ∧
    (gblink_alloc TickType_t_bits_esp32 4096 dirty_block sample_def 1000).in_ = 0x5A ∧
    (gblink_alloc TickType_t_bits_esp32 4096 dirty_block sample_def 1000).out = 0xC3 ∧
    (gblink_alloc TickType_t_bits_esp32 4096 dirty_block sample_def 1000).out_buf_valid
      = true ∧
    (gblink_alloc TickType_t_bits_esp32 4096 dirty_block sample_def 1000).nobyte = 0x11 ∧
    ¬ (gblink_alloc TickType_t_bits_esp32 4096 dirty_block sample_def 1000).shift ≤ 7 ∧
    (run TickType_t_bits_esp32
      (gblink_alloc TickType_t_bits_esp32 4096 dirty_block sample_def 1000)
      (edges_10us 1010 [1, 0, 1, 0, 1, 0, 1, 0])).2 = [] := by
  decide

/-- C19.  `gblink_clk_source_set` writes the clock source and the bit counter and
nothing else: `in_accum`, `out_active`, the pending slot, the idle byte,
`last_edge_time` and `timeout_us` are unchanged.  So a byte partly shifted out
goes on (the next falling edge drives the same level and leaves the same
`out_active`), and a pending byte stays pending (at the next completion the
callback is entered with `out_active` equal to the pending byte, or to the idle
byte when none was pending). -/
theorem C19_clk_source_set_frame (tw : Nat) (g : gblink) (source : Nat) :
    gblink_clk_source_set g source = { g with source := source, shift := 0 } ∧
    (gblink_clk_source_set g source).in_ = g.in_ ∧
    (gblink_clk_source_set g source).out = g.out ∧
    (gblink_clk_source_set g source).out_buf = g.out_buf ∧
    (gblink_clk_source_set g source).out_buf_valid = g.out_buf_valid ∧
    (gblink_clk_source_set g source).nobyte = g.nobyte ∧
    (gblink_clk_source_set g source).time = g.time ∧
    (gblink_clk_source_set g source).bitclk_timeout_us = g.bitclk_timeout_us ∧
    (gblink_shift_out (gblink_clk_source_set g source)).2 = (gblink_shift_out g).2 ∧
    (gblink_shift_out (gblink_clk_source_set g source)).1.out = (gblink_shift_out g).1.out ∧
    (∀ (now level : Nat),
      (promote (shift_in_bit tw (gblink_clk_source_set g source) now level)).out
        = if g.out_buf_valid then g.out_buf else g.nobyte) := by
  refine ⟨rfl, rfl, rfl, rfl, rfl, rfl, rfl, rfl, rfl, rfl, ?_⟩
  intro now level
  have hf := shift_in_bit_frame tw (gblink_clk_source_set g source) now level
  simp only [promote, hf]
  simp only [gblink_clk_source_set]
  split <;> rfl

/-! ## The two halves of the interrupt handler (C15, C20) -/

/-- C15.  When `gblink_clk_isr` samples the clock low, it drives `serial_out` with
bit 7 of `out_active` (level 1 exactly when `out_active >= 128`, `out_active` being
a `uint8_t`), replaces `out_active` by `(out_active * 2) mod 256`, leaves every
other field, `in_accum`, `bit_count`, `last_edge_time` and the pending slot among
them, as it is, and does not invoke the callback.  When it samples the clock high
(any nonzero level) it does what `gblink_shift_in` does and drives no pin. -/
theorem C15_isr_falling_and_rising (tw : Nat) (cb : Nat → Nat → List Call) (g : gblink)
    (now level : Nat) (hout : g.out < 256) :
    gblink_clk_isr tw cb g 0 now level
      = ({ g with out := g.out * 2 % 256 },
          [Effect.gpio_set_level g.serout (if 128 ≤ g.out then 1 else 0)]) ∧
    (if 128 ≤ g.out then 1 else 0) = g.out / 2 ^ 7 % 2 ∧
    (gblink_clk_isr tw cb g 0 now level).1.in_ = g.in_ ∧
    (gblink_clk_isr tw cb g 0 now level).1.shift = g.shift ∧
    (gblink_clk_isr tw cb g 0 now level).1.time = g.time ∧
    (gblink_clk_isr tw cb g 0 now level).1.out_buf = g.out_buf ∧
    (gblink_clk_isr tw cb g 0 now level).1.out_buf_valid = g.out_buf_valid ∧
    delivered (gblink_clk_isr tw cb g 0 now level).2 = [] ∧
    (∀ (clk_level : Nat), clk_level ≠ 0 →
      gblink_clk_isr tw cb g clk_level now level = gblink_shift_in tw cb g now level ∧
      ∀ (pin : Nat), driven pin (gblink_clk_isr tw cb g clk_level now level).2 = []) := by
  have hbit : (if 128 ≤ g.out then 1 else 0) = g.out / 2 ^ 7 % 2 := by
    split <;> omega
  have hlow : gblink_clk_isr tw cb g 0 now level
      = ({ g with out := g.out * 2 % 256 },
          [Effect.gpio_set_level g.serout (if 128 ≤ g.out then 1 else 0)]) := by
    simp only [gblink_clk_isr, gblink_shift_out, ne_eq, not_true_eq_false, if_false, msb_level]
    rw [hbit]
    rfl
  refine ⟨hlow, hbit, ?_, ?_, ?_, ?_, ?_, ?_, ?_⟩
  · rw [hlow]
  · rw [hlow]
  · rw [hlow]
  · rw [hlow]
  · rw [hlow]
  · rw [hlow]; rfl
  · intro clk_level hclk
    have hhigh : gblink_clk_isr tw cb g clk_level now level
        = gblink_shift_in tw cb g now level := by
      simp only [gblink_clk_isr, hclk, ne_eq, not_false_eq_true, if_true]
    refine ⟨hhigh, fun pin => ?_⟩
    rw [hhigh]
    rcases rising_edge_effects tw cb g now level with h | h <;> rw [h] <;> rfl

/-- C15 at a concrete input: `out_active = 0x81` drives level 1 and becomes `0x02`;
with the clock sampled high the handler shifts a bit in and drives nothing. -/
theorem C15_isr_falling_and_rising_witness :
    gblink_clk_isr 32 cb_none mid_byte_handle 0 110 1
      = ({ mid_byte_handle with out := 0x02 }, [Effect.gpio_set_level 2 1]) ∧
    driven 2 (gblink_clk_isr 32 cb_none mid_byte_handle 1 110 1).2 = [] :=
  have h := C15_isr_falling_and_rising 32 cb_none mid_byte_handle 110 1 (by decide)
  ⟨h.1, (h.2.2.2.2.2.2.2.2 1 (by decide)).2 2⟩

/-- C20.  A rising edge that completes no byte (the counter after the increment is
not 8), and so every edge on which the timeout fires, leaves the outbound side
as it is: `out_active`, the pending slot and the idle byte are unchanged and the
callback is not invoked.  Only a byte completion changes `out_active` on a rising
edge: when the handler returns with another `out_active`, the counter had reached
8 and the callback was invoked. -/
theorem C20_incomplete_rising_edge_keeps_outbound (tw : Nat) (cb : Nat → Nat → List Call)
    (g : gblink) (now level : Nat) :
    ((shift_in_bit tw g now level).shift ≠ 8 →
      (gblink_shift_in tw cb g now level).1.out = g.out ∧
      (gblink_shift_in tw cb g now level).1.out_buf = g.out_buf ∧
      (gblink_shift_in tw cb g now level).1.out_buf_valid = g.out_buf_valid ∧
      (gblink_shift_in tw cb g now level).1.nobyte = g.nobyte ∧
      (gblink_shift_in tw cb g now level).2 = []) ∧
    (elapsed_us (now % 2 ^ 64) g.time > g.bitclk_timeout_us →
      (shift_in_bit tw g now level).shift ≠ 8) ∧
    ((gblink_shift_in tw cb g now level).1.out ≠ g.out →
      (shift_in_bit tw g now level).shift = 8 ∧
      (gblink_shift_in tw cb g now level).2
        = [Effect.callback g.callback g.cb_context (shift_in_bit tw g now level).in_]) := by
  have hf := shift_in_bit_frame tw g now level
  have hA : (shift_in_bit tw g now level).shift ≠ 8 →
      (gblink_shift_in tw cb g now level).1.out = g.out ∧
      (gblink_shift_in tw cb g now level).1.out_buf = g.out_buf ∧
      (gblink_shift_in tw cb g now level).1.out_buf_valid = g.out_buf_valid ∧
      (gblink_shift_in tw cb g now level).1.nobyte = g.nobyte ∧
      (gblink_shift_in tw cb g now level).2 = [] := by
    intro hne
    rw [shift_in_incomplete tw cb g now level hne]
    exact ⟨hf.1, hf.2.1, hf.2.2.1, hf.2.2.2.1, rfl⟩
  refine ⟨hA, ?_, ?_⟩
  · intro hst
    rw [(shift_in_bit_stale tw g now level hst).1]
    decide
  · intro hch
    by_cases h8 : (shift_in_bit tw g now level).shift = 8
    · exact ⟨h8, by rw [shift_in_complete_eq tw cb g now level h8]⟩
    · exact absurd (hA h8).1 hch

/-- C20 at a concrete input: 6 bits in and `0x3C` pending; an edge in time and an
edge after a gap of 900 us both leave `out_active = 0x81` and the pending byte. -/
theorem C20_incomplete_rising_edge_keeps_outbound_witness :
    (gblink_shift_in 32 cb_none (gblink_transfer mid_byte_handle 0x3C) 110 1).1.out = 0x81 ∧
    (gblink_shift_in 32 cb_none (gblink_transfer mid_byte_handle 0x3C) 110 1).1.out_buf
      = 0x3C ∧
    (gblink_shift_in 32 cb_none (gblink_transfer mid_byte_handle 0x3C) 1000 1).1.out = 0x81 ∧
    (gblink_shift_in 32 cb_none (gblink_transfer mid_byte_handle 0x3C) 1000 1).2 = [] :=
  have h := C20_incomplete_rising_edge_keeps_outbound 32 cb_none
    (gblink_transfer mid_byte_handle 0x3C) 110 1
  have k := C20_incomplete_rising_edge_keeps_outbound 32 cb_none
    (gblink_transfer mid_byte_handle 0x3C) 1000 1
  ⟨(h.1 (by decide)).1, (h.1 (by decide)).2.1, (k.1 (k.2.1 (by decide))).1,
    (k.1 (k.2.1 (by decide))).2.2.2.2⟩

/-! ## The pending slot (C16, C17) -/

/-- C16.  `gblink_transfer(v1)` immediately followed by `gblink_transfer(v2)` leaves
the handle that `gblink_transfer(v2)` alone leaves: the same `out_active` and
`out_pending_valid` (and every other field), `out_pending == v2` whenever
`out_pending_valid` is set, and `v1` nowhere: either `out_active == v2` with nothing
pending, or `out_active` as before both calls with `v2` pending. -/
theorem C16_back_to_back_transfer (g : gblink) (v1 v2 : Nat) (hv2 : v2 < 256) :
    gblink_transfer (gblink_transfer g v1) v2 = gblink_transfer g v2 ∧
    (gblink_transfer (gblink_transfer g v1) v2).out = (gblink_transfer g v2).out ∧
    (gblink_transfer (gblink_transfer g v1) v2).out_buf_valid
      = (gblink_transfer g v2).out_buf_valid ∧
    ((gblink_transfer (gblink_transfer g v1) v2).out_buf_valid = true →
      (gblink_transfer (gblink_transfer g v1) v2).out_buf = v2) ∧
    (((gblink_transfer (gblink_transfer g v1) v2).out = v2 ∧
        (gblink_transfer (gblink_transfer g v1) v2).out_buf_valid = false) ∨
      ((gblink_transfer (gblink_transfer g v1) v2).out = g.out ∧
        (gblink_transfer (gblink_transfer g v1) v2).out_buf = v2 ∧
        (gblink_transfer (gblink_transfer g v1) v2).out_buf_valid = true)) := by
  have heq : gblink_transfer (gblink_transfer g v1) v2 = gblink_transfer g v2 := by
    by_cases h0 : g.shift = 0 <;> simp [gblink_transfer, h0]
  rw [heq]
  refine ⟨rfl, rfl, rfl, ?_, ?_⟩
  · by_cases h0 : g.shift = 0 <;> simp [gblink_transfer, h0, Nat.mod_eq_of_lt hv2]
  · by_cases h0 : g.shift = 0 <;> simp [gblink_transfer, h0, Nat.mod_eq_of_lt hv2]

/-- C16 at a concrete input: 6 bits in, `gblink_transfer(0x11)` then
`gblink_transfer(0x3C)`. -/
theorem C16_back_to_back_transfer_witness :
    gblink_transfer (gblink_transfer mid_byte_handle 0x11) 0x3C
      = gblink_transfer mid_byte_handle 0x3C ∧
    (gblink_transfer (gblink_transfer mid_byte_handle 0x11) 0x3C).out_buf = 0x3C :=
  have h := C16_back_to_back_transfer mid_byte_handle 0x11 0x3C (by decide)
  ⟨h.1, h.2.2.2.1 (by decide)⟩

theorem applyCalls_boundary_nothing_pending : ∀ (cs : List Call) (g : gblink),
    g.shift = 0 → g.out_buf_valid = false → (applyCalls g cs).out_buf_valid = false := by
  intro cs
  induction cs with
  | nil => intro g _ h; exact h
  | cons c cs ih =>
    intro g hs hv
    simp only [applyCalls]
    apply ih
    · exact applyCalls_shift_zero [c] g hs
    · cases c <;> simp [applyCall, gblink_clk_source_set, gblink_speed_set,
        gblink_timeout_set, gblink_transfer, gblink_nobyte_set, hs, hv]

theorem promote_nothing_pending (g : gblink) : (promote g).out_buf_valid = false := by
  simp only [promote]
  split
  · rfl
  · simp_all

theorem step_last_pending (tw : Nat) (g : gblink) (m : Option Nat) (e : Event)
    (h1 : g.out_buf_valid = true → m = some g.out_buf)
    (h2 : ∀ v, m = some v → g.out_buf_valid = true ∧ g.out_buf = v) :
    ((step tw g e).1.out_buf_valid = true →
      last_pending tw g m e = some (step tw g e).1.out_buf) ∧
    (∀ v, last_pending tw g m e = some v →
      (step tw g e).1.out_buf_valid = true ∧ (step tw g e).1.out_buf = v) := by
  cases e with
  | falling => simpa [step_falling, gblink_shift_out, last_pending] using ⟨h1, h2⟩
  | api c =>
    cases c with
    | transfer v =>
      by_cases h0 : g.shift = 0 <;>
        simp [step_api, applyCall, gblink_transfer, last_pending, h0]
    | clk_source_set s =>
      simpa [step_api, applyCall, gblink_clk_source_set, last_pending] using ⟨h1, h2⟩
    | speed_set s =>
      simpa [step_api, applyCall, gblink_speed_set, last_pending] using ⟨h1, h2⟩
    | timeout_set s =>
      simpa [step_api, applyCall, gblink_timeout_set, last_pending] using ⟨h1, h2⟩
    | nobyte_set s =>
      simpa [step_api, applyCall, gblink_nobyte_set, last_pending] using ⟨h1, h2⟩
  | rising now level cb =>
    by_cases h8 : (shift_in_bit tw g now level).shift = 8
    · have hv : (step tw g (Event.rising now level cb)).1.out_buf_valid = false := by
        rw [step_rising, shift_in_complete_eq tw cb g now level h8]
        exact applyCalls_boundary_nothing_pending _ _
          (promote_frame _).2.2.2.2.2.2 (promote_nothing_pending _)
      simp [last_pending, h8, hv]
    · have hf := shift_in_bit_frame tw g now level
      rw [step_rising, shift_in_incomplete tw cb g now level h8]
      simp only [last_pending, h8, if_false, hf]
      exact ⟨h1, h2⟩

theorem run_last_pending (tw : Nat) : ∀ (es : List Event) (g : gblink) (m : Option Nat),
    (g.out_buf_valid = true → m = some g.out_buf) →
    (∀ v, m = some v → g.out_buf_valid = true ∧ g.out_buf = v) →
    ((run tw g es).1.out_buf_valid = true →
      last_pending_after tw g m es = some (run tw g es).1.out_buf) ∧
    (∀ v, last_pending_after tw g m es = some v →
      (run tw g es).1.out_buf_valid = true ∧ (run tw g es).1.out_buf = v) := by
  intro es
  induction es with
  | nil => intro g m h1 h2; exact ⟨h1, h2⟩
  | cons e es ih =>
    intro g m h1 h2
    obtain ⟨s1, s2⟩ := step_last_pending tw g m e h1 h2
    exact ih (step tw g e).1 (last_pending tw g m e) s1 s2

/-- C17.  Start with `out_pending_valid == false` and let any sequence of rising
edges, falling edges, calls of `gblink_transfer` and setter calls follow.  In the
state reached, `out_pending_valid` is set only if the latest event among calls of
`gblink_transfer` and byte completions was a call of `gblink_transfer` made with
`bit_count > 0`, and then `out_pending` holds the value of that call; conversely,
after such a latest event `out_pending_valid` is set. -/
theorem C17_pending_valid_only_after_transfer_mid_byte (tw : Nat) (g : gblink)
    (es : List Event) (hv : g.out_buf_valid = false) :
    ((run tw g es).1.out_buf_valid = true →
      last_pending_after tw g none es = some (run tw g es).1.out_buf) ∧
    (∀ v, last_pending_after tw g none es = some v →
      (run tw g es).1.out_buf_valid = true ∧ (run tw g es).1.out_buf = v) :=
  run_last_pending tw es g none (fun h => by rw [hv] at h; cases h) (fun _ h => by cases h)

/-- C17 at a concrete input: from a byte boundary, a rising edge, `gblink_transfer(0x3C)`
mid-byte and a falling edge leave `0x3C` pending; seven more rising edges complete
the byte and nothing is pending. -/
theorem C17_pending_valid_only_after_transfer_mid_byte_witness :
    (run 32 sample_handle [Event.rising 10 1 cb_none, Event.api (Call.transfer 0x3C),
      Event.falling]).1.out_buf_valid = true ∧
    (run 32 sample_handle [Event.rising 10 1 cb_none, Event.api (Call.transfer 0x3C),
      Event.falling]).1.out_buf = 0x3C ∧
    last_pending_after 32 sample_handle none
      (Event.rising 10 1 cb_none :: Event.api (Call.transfer 0x3C) ::
        edges_10us 20 [1, 1, 1, 1, 1, 1, 1]) = none :=
  have h := C17_pending_valid_only_after_transfer_mid_byte 32 sample_handle
    [Event.rising 10 1 cb_none, Event.api (Call.transfer 0x3C), Event.falling] (by decide)
  ⟨(h.2 0x3C (by decide)).1, (h.2 0x3C (by decide)).2, by decide⟩

end GBLink
